import Mathlib

/-!
GlobalMuonReFitter: forward Kalman fit and backward smoother.

A shallow embedding of `RecoMuon/GlobalTrackFinder/src/GlobalMuonReFitter.cc`,
followed by one of `DataFormats/HcalDigi/src/HBHEDataFrame.cc` (namespace
`HcalDigi`).

The refitter drives collaborators whose code is not part of the sources at hand
(propagators, Kalman updator, chi-square estimator, state combiner, trajectory
updator).  They are taken as parameters, collected in `Env`; every theorem
quantifies over them.  Each function of the refitter returns its C++ result
together with the list of collaborator calls it made, in order, so that
statements such as "without invoking the propagator" can be written down.
-/

namespace GlobalMuonReFitter

/-! ## Data model -/

/-- Identity of a detector surface (what `recHit.det()->surface()` denotes). -/
abbrev Surface := Nat

/-- Identity of a detector layer (the target of a `const DetLayer*`). -/
abbrev DetLayer := Nat

/-- A chi-square value.  The refitter only carries these values around; it never
computes with them. -/
abbrev Chi2 := Int

/-- The enum `PropagationDirection`. -/
inductive PropagationDirection where
  | oppositeToMomentum
  | alongMomentum
  | anyDirection
deriving DecidableEq, Repr

/-- Modelled from the spec: class `TrajectoryStateOnSurface` (`TSOS`), whose
declaration is not among the sources.  Spec section 3: a Gaussian estimate of
track parameters at a surface, with a validity flag.  The refitter observes the
validity only; the estimate is kept as an uninterpreted number. -/
structure TSOS where
  valid : Bool
  params : Nat
deriving DecidableEq, Repr

/-- The call `tsos.isValid()`. -/
def TSOS.isValid (s : TSOS) : Bool := s.valid

/-- A default-constructed `TSOS`, which is not valid. -/
def TSOS.unset : TSOS := ⟨false, 0⟩

/-- Modelled from the spec: class `TransientTrackingRecHit`, whose declaration
is not among the sources.  Spec sections 3 and 6: an immutable hit exposing its
validity and a target detector surface.  The measurement itself is kept as an
uninterpreted identity. -/
structure RecHit where
  valid : Bool
  surface : Surface
  ident : Nat
deriving DecidableEq, Repr

/-- The call `hit.isValid()`. -/
def RecHit.isValid (h : RecHit) : Bool := h.valid

/-- Modelled from the spec: class `TrajectorySeed`, whose declaration is not
among the sources; the refitter only copies it, so it is kept uninterpreted. -/
structure TrajectorySeed where
  ident : Nat
deriving DecidableEq, Repr

/-- Modelled from the spec: class `TrajectoryMeasurement` (`TM`), whose
declaration is not among the sources.  Spec section 3: forward-predicted state,
backward-predicted state (filled during smoothing), updated/smoothed state,
reference to the hit, fit-quality estimate (chi-square), detector-layer
reference.  A state slot that a constructor was not given holds the
default-constructed state; an absent layer is a null pointer. -/
structure TM where
  theFwdPredictedState : TSOS
  theBwdPredictedState : TSOS
  theUpdatedState : TSOS
  theRecHit : RecHit
  theEstimate : Chi2
  theLayer : Option DetLayer
deriving DecidableEq, Repr

namespace TM

/-- Modelled from the spec: the constructor `TM(fwdPredicted, hit)` used by
`fit`; no other state, zero estimate, no layer. -/
def ofPredicted (fwd : TSOS) (hit : RecHit) : TM :=
  ⟨fwd, TSOS.unset, TSOS.unset, hit, 0, none⟩

/-- Modelled from the spec: the constructor `TM(fwdPredicted, hit, estimate,
layer)`, a measurement holding the forward-predicted state only. -/
def ofForward (fwd : TSOS) (hit : RecHit) (est : Chi2) (layer : Option DetLayer) : TM :=
  ⟨fwd, TSOS.unset, TSOS.unset, hit, est, layer⟩

/-- Modelled from the spec: the constructor `TM(fwdPredicted, bwdPredicted,
updated, hit, estimate, layer)`. -/
def ofStates (fwd bwd upd : TSOS) (hit : RecHit) (est : Chi2) (layer : Option DetLayer) : TM :=
  ⟨fwd, bwd, upd, hit, est, layer⟩

def forwardPredictedState (m : TM) : TSOS := m.theFwdPredictedState
def backwardPredictedState (m : TM) : TSOS := m.theBwdPredictedState
def updatedState (m : TM) : TSOS := m.theUpdatedState
def recHit (m : TM) : RecHit := m.theRecHit
def estimate (m : TM) : Chi2 := m.theEstimate
def layer (m : TM) : Option DetLayer := m.theLayer

end TM

/-- Modelled from the spec: class `Trajectory`, whose declaration is not among
the sources.  Spec section 3: an ordered, append-only sequence of TMs plus the
originating seed and propagation direction; validity requires at least one TM;
emptiness and validity are distinct predicates.  `theValid` is the part of
validity that does not follow from the measurements.  The spec's data model has
no running chi-square total, so the increment handed to `push` is not stored. -/
structure Trajectory where
  theSeed : TrajectorySeed
  theDirection : PropagationDirection
  theData : List TM
  theValid : Bool
deriving DecidableEq, Repr

namespace Trajectory

/-- Modelled from the spec: the constructor `Trajectory(seed, direction)`; no
measurement yet, and not invalidated. -/
def new (seed : TrajectorySeed) (dir : PropagationDirection) : Trajectory :=
  ⟨seed, dir, [], true⟩

def seed (t : Trajectory) : TrajectorySeed := t.theSeed
def measurements (t : Trajectory) : List TM := t.theData
def empty (t : Trajectory) : Bool := t.theData.isEmpty

/-- Modelled from the spec: `Trajectory::isValid()`; validity requires at least
one TM. -/
def isValid (t : Trajectory) : Bool := t.theValid && !t.theData.isEmpty

/-- Modelled from the spec: `Trajectory::recHits()`, the hits of the
measurements, in order. -/
def recHits (t : Trajectory) : List RecHit := t.theData.map TM.recHit

/-- Modelled from the spec: `Trajectory::push(tm, chi2Increment)`; the sequence
is ordered and append-only, so the measurement goes to the end. -/
def push (t : Trajectory) (tm : TM) (_chi2Increment : Chi2) : Trajectory :=
  { t with theData := t.theData ++ [tm] }

/-- Modelled from the spec: `Trajectory::push(tm)`, a push with the estimate of
the measurement as increment. -/
def push1 (t : Trajectory) (tm : TM) : Trajectory := t.push tm tm.estimate

end Trajectory

/-- What `theTrajectoryUpdator->update(theMeas, myTraj)` yields: the returned
`pair<bool, TSOS>` and the trajectory it was handed by reference, as the call
left it. -/
structure UpdateResult where
  first : Bool
  second : TSOS
  traj : Trajectory
deriving DecidableEq, Repr

/-- The collaborators of the refitter, none of which is defined in the sources
at hand. -/
structure Env where
  /-- The call `theTrajectoryUpdator->update(meas, traj)` (`MuonTrajectoryUpdator`). -/
  theTrajectoryUpdator : TM → Trajectory → UpdateResult
  /-- The call `thePropagator1->propagate(state, surface)`, along momentum. -/
  thePropagator1 : TSOS → Surface → TSOS
  /-- The call `thePropagator1->propagationDirection()`. -/
  thePropagator1Direction : PropagationDirection
  /-- The call `thePropagator2->propagate(state, surface)`, opposite to momentum. -/
  thePropagator2 : TSOS → Surface → TSOS
  /-- The call `thePropagator2->propagationDirection()`. -/
  thePropagator2Direction : PropagationDirection
  /-- The call `theUpdator->update(state, hit)` (`KFUpdator`). -/
  theUpdator : TSOS → RecHit → TSOS
  /-- The call `theEstimator->estimate(state, hit)` (`Chi2MeasurementEstimator`). -/
  theEstimator : TSOS → RecHit → Bool × Chi2
  /-- The call `TrajectoryStateCombiner()(a, b)`. -/
  combiner : TSOS → TSOS → TSOS
  /-- The call `TrajectoryStateWithArbitraryError()(state)`. -/
  arbitraryError : TSOS → TSOS
  /-- The call `state.rescaleError(factor)`, as the state it leaves. -/
  rescaleError : TSOS → Nat → TSOS

/-- One call of a collaborator, with its arguments: the two direction queries
`thePropagator1->propagationDirection()` and `thePropagator2->propagationDirection()`,
the trajectory updator, the two propagations, the Kalman updator, the estimator
and the state combiner. -/
inductive Call where
  | directionAlong
  | directionOpposite
  | trajectoryUpdate (meas : TM) (traj : Trajectory)
  | propagateAlong (state : TSOS) (surface : Surface)
  | propagateOpposite (state : TSOS) (surface : Surface)
  | update (state : TSOS) (hit : RecHit)
  | estimate (state : TSOS) (hit : RecHit)
  | combine (a b : TSOS)
deriving DecidableEq, Repr

/-- The hit of the measurement that a call of the trajectory updator was handed. -/
def Call.handedHit : Call → Option RecHit
  | Call.trajectoryUpdate meas _ => some meas.recHit
  | _ => none

/-- Records the call `c` in front of the calls of the continuation `r`. -/
def called {α : Type} (c : Call) (r : α × List Call) : α × List Call :=
  (r.1, c :: r.2)

/-- The constant `theErrorRescaling = 100.0` set by the constructor. -/
def theErrorRescaling : Nat := 100

/-! ## Forward fit -/

/-- The loop of `fit` (lines 132-143): one pass over the hits in input order,
carrying the predicted state and the trajectory. -/
def fitLoop (env : Env) : List RecHit → TSOS → Trajectory → (TSOS × Trajectory) × List Call
  | [], predTsos, myTraj => ((predTsos, myTraj), [])
  | ihit :: rest, predTsos, myTraj =>
    let theMeas := TM.ofPredicted predTsos ihit
    let result := env.theTrajectoryUpdator theMeas myTraj
    called (Call.trajectoryUpdate theMeas myTraj)
      (if result.first then
        fitLoop env rest result.second result.traj
      else
        called (Call.propagateAlong predTsos ihit.surface)
          (fitLoop env rest (env.thePropagator1 predTsos ihit.surface) result.traj))

/-- The function `fit(seed, hits, firstPredTsos)` (lines 122-147), with its calls. -/
def fitRun (env : Env) (seed : TrajectorySeed) (hits : List RecHit) (firstPredTsos : TSOS) :
    List Trajectory × List Call :=
  if hits.isEmpty then ([], [])
  else
    let myTraj := Trajectory.new seed env.thePropagator1Direction
    called Call.directionAlong
      (let predTsos := firstPredTsos
      if !predTsos.isValid then ([], [])
      else
        let looped := fitLoop env hits predTsos myTraj
        if !looped.1.2.isValid then ([], looped.2)
        else ([looped.1.2], looped.2))

/-- The function `fit(const Trajectory&)` (lines 111-119), with its calls. -/
def fitTrajectoryRun (env : Env) (t : Trajectory) : List Trajectory × List Call :=
  if t.empty then ([], [])
  else
    match t.measurements.head? with
    | none => ([], [])  -- not reached: `t` is not empty
    | some firstTM =>
      let firstTsos := env.arbitraryError firstTM.updatedState
      fitRun env t.seed t.recHits firstTsos

/-! ## Backward smoother -/

/-- The step of `smooth` for the last fitted measurement (lines 179-200): yields
the current state and the trajectory after the first push. -/
def smoothLast (env : Env) (back : TM) (predTsos : TSOS) (myTraj : Trajectory) :
    (TSOS × Trajectory) × List Call :=
  if back.recHit.isValid then
    called (Call.update predTsos back.recHit)
      ((env.theUpdator predTsos back.recHit,
        myTraj.push
          (TM.ofStates back.forwardPredictedState predTsos back.updatedState
            back.recHit back.estimate back.layer)
          back.estimate), [])
  else
    ((predTsos,
      myTraj.push1 (TM.ofForward back.forwardPredictedState back.recHit back.estimate back.layer)),
     [])

/-- The body of the reverse walk of `smooth` (lines 206-237) at the
measurement `itm`: the current state and the trajectory it leaves, or `none`
for the early `return vector<Trajectory>()`. -/
def smoothStep (env : Env) (itm : TM) (currTsos : TSOS) (myTraj : Trajectory) :
    Option (TSOS × Trajectory) × List Call :=
  let predTsos := env.thePropagator2 currTsos itm.recHit.surface
  called (Call.propagateOpposite currTsos itm.recHit.surface)
    (if !predTsos.isValid then (none, [])
    else if itm.recHit.isValid then
      let currTsos := env.theUpdator predTsos itm.recHit
      called (Call.update predTsos itm.recHit)
        (let combTsos := env.combiner predTsos itm.forwardPredictedState
        called (Call.combine predTsos itm.forwardPredictedState)
          (if !combTsos.isValid then (none, [])
          else
            let smooTsos := env.combiner itm.updatedState predTsos
            called (Call.combine itm.updatedState predTsos)
              (if !smooTsos.isValid then (none, [])
              else
                called (Call.estimate combTsos itm.recHit)
                  (some (currTsos,
                    myTraj.push
                      (TM.ofStates itm.forwardPredictedState predTsos smooTsos itm.recHit
                        (env.theEstimator combTsos itm.recHit).2 itm.layer)
                      itm.estimate), []))))
    else
      let currTsos := predTsos
      let combTsos := env.combiner predTsos itm.forwardPredictedState
      called (Call.combine predTsos itm.forwardPredictedState)
        (if !combTsos.isValid then (none, [])
        else
          (some (currTsos,
            myTraj.push1
              (TM.ofStates itm.forwardPredictedState predTsos combTsos itm.recHit
                itm.estimate itm.layer)), [])))

/-- The reverse walk of `smooth` (lines 204-238) over the measurements handed
in walking order: the body is run at each measurement in turn, and an early
return ends the walk. -/
def smoothLoop (env : Env) :
    List TM → TSOS → Trajectory → Option (TSOS × Trajectory) × List Call
  | [], currTsos, myTraj => (some (currTsos, myTraj), [])
  | itm :: rest, currTsos, myTraj =>
    match smoothStep env itm currTsos myTraj with
    | (none, calls) => (none, calls)
    | (some (currTsos, myTraj), calls) =>
      ((smoothLoop env rest currTsos myTraj).1, calls ++ (smoothLoop env rest currTsos myTraj).2)

/-- The step of `smooth` for the first fitted measurement (lines 241-261). -/
def smoothFirst (env : Env) (front : TM) (currTsos : TSOS) (myTraj : Trajectory) :
    List Trajectory × List Call :=
  let predTsos := env.thePropagator2 currTsos front.recHit.surface
  called (Call.propagateOpposite currTsos front.recHit.surface)
    (if !predTsos.isValid then ([], [])
    else if front.recHit.isValid then
      let currTsos := env.theUpdator predTsos front.recHit
      called (Call.update predTsos front.recHit)
        (called (Call.estimate predTsos front.recHit)
          ([myTraj.push
              (TM.ofStates front.forwardPredictedState predTsos currTsos front.recHit
                (env.theEstimator predTsos front.recHit).2 front.layer)
              front.estimate], []))
    else
      ([myTraj.push1
          (TM.ofForward front.forwardPredictedState front.recHit front.estimate front.layer)],
       []))

/-- The measurements the reverse walk visits, in walking order: from
`rbegin() + 1` up to, and without, `rend() - 1`. -/
def interior (avtm : List TM) : List TM := avtm.reverse.tail.dropLast

/-- The function `smooth(const Trajectory&)` (lines 164-263), with its calls. -/
def smoothRun (env : Env) (t : Trajectory) : List Trajectory × List Call :=
  if t.empty then ([], [])
  else
    let myTraj := Trajectory.new t.seed env.thePropagator2Direction
    called Call.directionOpposite
      (let avtm := t.measurements
      if avtm.length < 2 then ([], [])
      else
        match avtm.head?, avtm.getLast? with
        | some front, some back =>
          let predTsos := env.rescaleError back.forwardPredictedState theErrorRescaling
          if !predTsos.isValid then ([], [])
          else
            let last := smoothLast env back predTsos myTraj
            let walk := smoothLoop env (interior avtm) last.1.1 last.1.2
            match walk.1 with
            | none => ([], last.2 ++ walk.2)
            | some (currTsos, myTraj) =>
              let first := smoothFirst env front currTsos myTraj
              (first.1, last.2 ++ walk.2 ++ first.2)
        | _, _ => ([], []))  -- not reached: `avtm` holds two measurements at least

/-- The function `smooth(const vector<Trajectory>&)` (lines 150-161), with its calls. -/
def smoothAllRun (env : Env) : List Trajectory → List Trajectory × List Call
  | [] => ([], [])
  | it :: rest =>
    let smoothed := smoothRun env it
    let result := smoothAllRun env rest
    (smoothed.1 ++ result.1, smoothed.2 ++ result.2)

/-! ## Entry points -/

/-- The function `trajectories(const Trajectory&)` (lines 90-95), with its calls. -/
def trajectoriesOfRun (env : Env) (t : Trajectory) : List Trajectory × List Call :=
  if !t.isValid then ([], [])
  else
    let fitted := fitTrajectoryRun env t
    let smoothed := smoothAllRun env fitted.1
    (smoothed.1, fitted.2 ++ smoothed.2)

/-- The function `trajectories(seed, hits, firstPredTsos)` (lines 98-109), with its calls. -/
def trajectoriesRun (env : Env) (seed : TrajectorySeed) (hits : List RecHit)
    (firstPredTsos : TSOS) : List Trajectory × List Call :=
  if hits.isEmpty then ([], [])
  else
    let firstTsos := env.arbitraryError firstPredTsos
    let fitted := fitRun env seed hits firstTsos
    let smoothed := smoothAllRun env fitted.1
    (smoothed.1, fitted.2 ++ smoothed.2)

/-! ## Results and calls of each function -/

def fit (env : Env) (seed : TrajectorySeed) (hits : List RecHit) (firstPredTsos : TSOS) :
    List Trajectory := (fitRun env seed hits firstPredTsos).1

def fitCalls (env : Env) (seed : TrajectorySeed) (hits : List RecHit) (firstPredTsos : TSOS) :
    List Call := (fitRun env seed hits firstPredTsos).2

def fitTrajectory (env : Env) (t : Trajectory) : List Trajectory := (fitTrajectoryRun env t).1

def fitTrajectoryCalls (env : Env) (t : Trajectory) : List Call := (fitTrajectoryRun env t).2

def smooth (env : Env) (t : Trajectory) : List Trajectory := (smoothRun env t).1

def smoothCalls (env : Env) (t : Trajectory) : List Call := (smoothRun env t).2

def smoothAll (env : Env) (tc : List Trajectory) : List Trajectory := (smoothAllRun env tc).1

def smoothAllCalls (env : Env) (tc : List Trajectory) : List Call := (smoothAllRun env tc).2

def trajectoriesOf (env : Env) (t : Trajectory) : List Trajectory := (trajectoriesOfRun env t).1

def trajectoriesOfCalls (env : Env) (t : Trajectory) : List Call := (trajectoriesOfRun env t).2

def trajectories (env : Env) (seed : TrajectorySeed) (hits : List RecHit)
    (firstPredTsos : TSOS) : List Trajectory := (trajectoriesRun env seed hits firstPredTsos).1

def trajectoriesCalls (env : Env) (seed : TrajectorySeed) (hits : List RecHit)
    (firstPredTsos : TSOS) : List Call := (trajectoriesRun env seed hits firstPredTsos).2

/-! ## Intermediate states of the two passes -/

/-- The predicted state and the trajectory with which the loop of `fit` comes
to the hit that follows the hits `visited`, the first hits of its input. -/
def fitReach (env : Env) (seed : TrajectorySeed) (visited : List RecHit)
    (firstPredTsos : TSOS) : TSOS × Trajectory :=
  (fitLoop env visited firstPredTsos (Trajectory.new seed env.thePropagator1Direction)).1

/-- The state `predTsos` of `smooth` after `rescaleError` (lines 173-174), for
the last measurement `back` of its input. -/
def smoothRescaled (env : Env) (back : TM) : TSOS :=
  env.rescaleError back.forwardPredictedState theErrorRescaling

/-- The current state and the trajectory with which `smooth` enters its reverse
walk: what the step for the last measurement `back` leaves. -/
def smoothEntry (env : Env) (t : Trajectory) (back : TM) : TSOS × Trajectory :=
  (smoothLast env back (smoothRescaled env back)
    (Trajectory.new t.seed env.thePropagator2Direction)).1

/-- The current state and the trajectory of `smooth` once its reverse walk has
been through the measurements `visited`, the first ones in walking order;
`none` when the walk has returned early. -/
def smoothAfter (env : Env) (t : Trajectory) (back : TM) (visited : List TM) :
    Option (TSOS × Trajectory) :=
  (smoothLoop env visited (smoothEntry env t back).1 (smoothEntry env t back).2).1

/-- The three fields of a measurement that come from the fit and the detector:
its forward-predicted state, its hit and its layer. -/
def TM.frame (m : TM) : TSOS × RecHit × Option DetLayer :=
  (m.forwardPredictedState, m.recHit, m.layer)

/-! ## Sample collaborators and inputs

Concrete collaborators on which the definitions above can be evaluated. -/

/-- A trajectory updator that filters a valid hit and pushes its measurement, and
that reports failure on an invalid hit, leaving the trajectory as it was. -/
def sampleTrajectoryUpdator (meas : TM) (traj : Trajectory) : UpdateResult :=
  if meas.recHit.isValid then
    ⟨true, ⟨meas.forwardPredictedState.valid, meas.forwardPredictedState.params + meas.recHit.ident⟩,
      traj.push
        (TM.ofStates meas.forwardPredictedState TSOS.unset
          ⟨meas.forwardPredictedState.valid, meas.forwardPredictedState.params + meas.recHit.ident⟩
          meas.recHit 1 (some meas.recHit.surface))
        1⟩
  else ⟨false, TSOS.unset, traj⟩

/-- Sample collaborators.  Both propagators hand back an invalid state for an
invalid one; the backward propagator cannot reach surface 9; the Kalman updator
fails on the hit of identity 7. -/
def sampleEnv : Env where
  theTrajectoryUpdator := sampleTrajectoryUpdator
  thePropagator1 := fun s surf => ⟨s.valid, s.params + surf⟩
  thePropagator1Direction := PropagationDirection.alongMomentum
  thePropagator2 := fun s surf => ⟨s.valid && surf != 9, s.params + surf⟩
  thePropagator2Direction := PropagationDirection.oppositeToMomentum
  theUpdator := fun s h => ⟨s.valid && h.ident != 7, s.params + h.ident⟩
  theEstimator := fun s h => (true, Int.ofNat (s.params + h.ident))
  combiner := fun a b => ⟨a.valid && b.valid, a.params + b.params⟩
  arbitraryError := fun s => s
  rescaleError := fun s k => ⟨s.valid, s.params * k⟩

/-- A trajectory updator that pushes the measurement it is handed, for every hit. -/
def pushingTrajectoryUpdator (meas : TM) (traj : Trajectory) : UpdateResult :=
  ⟨meas.recHit.isValid, meas.forwardPredictedState, traj.push1 meas⟩

/-- The sample collaborators with the trajectory updator that always pushes. -/
def pushingEnv : Env := { sampleEnv with theTrajectoryUpdator := pushingTrajectoryUpdator }

/-- The sample collaborators with a backward propagator that hands back a valid
state whatever state it is given. -/
def repairingEnv : Env :=
  { sampleEnv with thePropagator2 := fun s surf => ⟨true, s.params + surf⟩ }

/-- The sample collaborators with a trajectory updator that reports failure,
pushes nothing and invalidates the trajectory. -/
def refusingEnv : Env :=
  { sampleEnv with
    theTrajectoryUpdator := fun _ traj => ⟨false, TSOS.unset, { traj with theValid := false }⟩ }

def sampleSeed : TrajectorySeed := ⟨0⟩
def sampleState : TSOS := ⟨true, 1⟩
def hit1 : RecHit := ⟨true, 1, 1⟩
def hit2 : RecHit := ⟨true, 2, 2⟩
/-- An invalid hit. -/
def hitLost : RecHit := ⟨false, 3, 3⟩
/-- A valid hit on the surface the sample backward propagator cannot reach. -/
def hitFar : RecHit := ⟨true, 9, 4⟩
/-- A valid hit on which the sample Kalman updator fails. -/
def hitBad : RecHit := ⟨true, 5, 7⟩

/-- The filtered measurement the sample trajectory updator pushes for a valid hit. -/
def sampleTM (fwd : Nat) (hit : RecHit) : TM :=
  TM.ofStates ⟨true, fwd⟩ TSOS.unset ⟨true, fwd + hit.ident⟩ hit 1 (some hit.surface)

/-- A filtered trajectory over the given measurements. -/
def sampleTrajectory (ms : List TM) : Trajectory :=
  ⟨sampleSeed, PropagationDirection.alongMomentum, ms, true⟩

end GlobalMuonReFitter

/-! ## HBHEDataFrame

A shallow embedding of `DataFormats/HcalDigi/src/HBHEDataFrame.cc`. -/

namespace HcalDigi

/-- Modelled from the spec: class `HcalQIESample`, whose declaration is not among
the sources; the spec leaves the digi sample format out (section 1), so a sample
is kept to what `validate` reads of it: the error flag `er()`, the data-valid
flag `dv()` and the capacitor id `capid()`, one of the four capacitors 0..3 that
`validate` cycles through with `% 4`. -/
structure HcalQIESample where
  er : Bool
  dv : Bool
  capid : Fin 4
deriving DecidableEq, Repr

/-- A default-constructed sample: all bits clear. -/
def HcalQIESample.zero : HcalQIESample := ⟨false, false, 0⟩

/-- The members of `HBHEDataFrame`, declared in a header that is not among the
sources: the raw ids, the `int size_`, the 32-bit word `hcalPresamples_` (all
operations below stay inside its low 12 bits or leave the other bits alone) and
the sample array `data_`, read at indices below `size_` only. -/
structure HBHEDataFrame where
  id_ : Nat
  electronicsId_ : Nat
  size_ : Int
  hcalPresamples_ : Nat
  data_ : Nat → HcalQIESample

namespace HBHEDataFrame

/-- The constructor `HBHEDataFrame(const HcalDetId& id)` (lines 10-16); the
default constructor (lines 4-8) is `fresh 0`. -/
def fresh (id : Nat) : HBHEDataFrame :=
  ⟨id, 0, 0, 0, fun _ => HcalQIESample.zero⟩

/-- The function `setSize` (lines 18-22); the constant `MAXSAMPLES` of the header
is a parameter. -/
def setSize (maxSamples : Int) (f : HBHEDataFrame) (size : Int) : HBHEDataFrame :=
  if size > maxSamples then { f with size_ := maxSamples }
  else if size ≤ 0 then { f with size_ := 0 }
  else { f with size_ := size }

/-- The function `setPresamples` (lines 23-25): `ps & 0xF` of a two's-complement
`int` is `ps` modulo 16. -/
def setPresamples (f : HBHEDataFrame) (ps : Int) : HBHEDataFrame :=
  { f with hcalPresamples_ := f.hcalPresamples_ ||| (ps % 16).toNat }

/-- The function `setReadoutIds` (lines 26-28). -/
def setReadoutIds (f : HBHEDataFrame) (eid : Nat) : HBHEDataFrame :=
  { f with electronicsId_ := eid }

/-- The function `setZSInfo` (lines 42-45). -/
def setZSInfo (f : HBHEDataFrame) (unsuppressed markAndPass : Bool) : HBHEDataFrame :=
  let f1 := if markAndPass then { f with hcalPresamples_ := f.hcalPresamples_ ||| 0x10 } else f
  if unsuppressed then { f1 with hcalPresamples_ := f1.hcalPresamples_ ||| 0x20 } else f1

/-- The loop of `validate` (lines 33-38) from the iteration `i` on, with the
running `capid` and `ok`; `fuel` bounds the number of guard evaluations, and
`none` means that it ran out.  The guard is evaluated left to right, so
`i + firstSample` is computed for `i = 0` or after `i - 1 + firstSample < size_`
held: the `int` arithmetic does not overflow, and `Int` stands for it. -/
def validateLoop (f : HBHEDataFrame) (firstSample nSamples : Int) :
    Nat → Int → Int → Bool → Option Bool
  | 0, _, _, _ => none
  | fuel + 1, i, capid, ok =>
    if ok && decide (i < nSamples) && decide (i + firstSample < f.size_) then
      let sample := f.data_ (i + firstSample).toNat
      let ok1 := if sample.er || !sample.dv then false else ok
      let capid1 := if i = 0 then (sample.capid.val : Int) else capid
      let ok2 := if capid1 ≠ (sample.capid.val : Int) then false else ok1
      validateLoop f firstSample nSamples fuel (i + 1) ((capid1 + 1).tmod 4) ok2
    else some ok

/-- The function `validate` (lines 30-40): the loop started with `capid = -1`
and `ok = true`; it evaluates its guard `nSamples + 1` times at most. -/
def validate (f : HBHEDataFrame) (firstSample nSamples : Int) : Option Bool :=
  validateLoop f firstSample nSamples (nSamples.toNat + 1) 0 (-1) true

/-- The function `fiberIdleOffset` (lines 47-50).  In C `==` binds tighter than
`&`, so `val&0x8==0` is `val & (0x8==0)`, the bitwise and of `val` with the
integer value, 0 or 1, of the comparison. -/
def fiberIdleOffset (f : HBHEDataFrame) : Int :=
  let val := (f.hcalPresamples_ &&& 0xF00) >>> 8
  if val = 0 then -1000
  else if (val &&& (if (0x8 : Nat) = 0 then 1 else 0)) ≠ 0 then -((val &&& 0x7 : Nat) : Int)
  else ((val &&& 0x7 : Nat) : Int)

/-- The function `setFiberIdleOffset` (lines 52-57); the shifted values are not
negative in their branches. -/
def setFiberIdleOffset (f : HBHEDataFrame) (offset : Int) : HBHEDataFrame :=
  if offset ≥ 7 then { f with hcalPresamples_ := f.hcalPresamples_ ||| 0xF00 }
  else if offset ≥ 0 then
    { f with hcalPresamples_ := f.hcalPresamples_ ||| (0x800 ||| (offset.toNat <<< 8)) }
  else if offset ≥ -7 then
    { f with hcalPresamples_ := f.hcalPresamples_ ||| ((-offset).toNat <<< 8) }
  else { f with hcalPresamples_ := f.hcalPresamples_ ||| 0x700 }

/-- The frames on which no fiber idle offset was ever set: the freshly
constructed ones, and what the other setters of this file make of such a frame. -/
inductive OffsetNeverSet : HBHEDataFrame → Prop where
  | fresh (id : Nat) : OffsetNeverSet (fresh id)
  | setSize (maxSamples : Int) (f : HBHEDataFrame) (size : Int) :
      OffsetNeverSet f → OffsetNeverSet (setSize maxSamples f size)
  | setPresamples (f : HBHEDataFrame) (ps : Int) :
      OffsetNeverSet f → OffsetNeverSet (setPresamples f ps)
  | setReadoutIds (f : HBHEDataFrame) (eid : Nat) :
      OffsetNeverSet f → OffsetNeverSet (setReadoutIds f eid)
  | setZSInfo (f : HBHEDataFrame) (unsuppressed markAndPass : Bool) :
      OffsetNeverSet f → OffsetNeverSet (setZSInfo f unsuppressed markAndPass)

/-- The sample at index `firstSample + i` passes the checks of `validate`: error
flag clear, data-valid flag set, and capacitor id equal to the capacitor id of
the sample at `firstSample`, plus `i`, modulo 4. -/
def sampleOk (f : HBHEDataFrame) (firstSample : Int) (i : Nat) : Prop :=
  (f.data_ (firstSample + i).toNat).er = false ∧
  (f.data_ (firstSample + i).toNat).dv = true ∧
  ((f.data_ (firstSample + i).toNat).capid.val : Int) =
    (((f.data_ firstSample.toNat).capid.val : Int) + i) % 4

/-- A sample frame of three good samples with the capacitor ids 2, 3, 0, then a
sample with its error flag set. -/
def sampleFrame : HBHEDataFrame :=
  ⟨1, 0, 4, 0, fun i =>
    if i = 0 then ⟨false, true, 2⟩ else if i = 1 then ⟨false, true, 3⟩
    else if i = 2 then ⟨false, true, 0⟩ else ⟨true, true, 1⟩⟩

end HBHEDataFrame

end HcalDigi

namespace GlobalMuonReFitter

/-! ## Basic facts -/

@[simp] theorem called_fst {α : Type} (c : Call) (r : α × List Call) : (called c r).1 = r.1 := rfl

@[simp] theorem called_snd {α : Type} (c : Call) (r : α × List Call) :
    (called c r).2 = c :: r.2 := rfl

/-- A list of two elements at least is a first element, a middle and a last element. -/
theorem two_le_length_split {α : Type} (xs : List α) (h : 2 ≤ xs.length) :
    ∃ f mid l, xs = f :: (mid ++ [l]) := by
  match xs, h with
  | f :: y :: ys, _ =>
    refine ⟨f, (y :: ys).dropLast, (y :: ys).getLast (by simp), ?_⟩
    rw [List.dropLast_append_getLast]

theorem interior_split (f l : TM) (mid : List TM) :
    interior (f :: (mid ++ [l])) = mid.reverse := by
  simp [interior]

theorem smoothRun_split (env : Env) (t : Trajectory) (f l : TM) (mid : List TM)
    (h : t.theData = f :: (mid ++ [l])) :
    smoothRun env t =
      called Call.directionOpposite
        (if !(env.rescaleError l.forwardPredictedState theErrorRescaling).isValid then ([], [])
        else
          match (smoothLoop env mid.reverse
              (smoothLast env l (env.rescaleError l.forwardPredictedState theErrorRescaling)
                (Trajectory.new t.seed env.thePropagator2Direction)).1.1
              (smoothLast env l (env.rescaleError l.forwardPredictedState theErrorRescaling)
                (Trajectory.new t.seed env.thePropagator2Direction)).1.2).1 with
          | none =>
            ([], (smoothLast env l (env.rescaleError l.forwardPredictedState theErrorRescaling)
                (Trajectory.new t.seed env.thePropagator2Direction)).2 ++
              (smoothLoop env mid.reverse
                (smoothLast env l (env.rescaleError l.forwardPredictedState theErrorRescaling)
                  (Trajectory.new t.seed env.thePropagator2Direction)).1.1
                (smoothLast env l (env.rescaleError l.forwardPredictedState theErrorRescaling)
                  (Trajectory.new t.seed env.thePropagator2Direction)).1.2).2)
          | some (currTsos, myTraj) =>
            ((smoothFirst env f currTsos myTraj).1,
              (smoothLast env l (env.rescaleError l.forwardPredictedState theErrorRescaling)
                (Trajectory.new t.seed env.thePropagator2Direction)).2 ++
              (smoothLoop env mid.reverse
                (smoothLast env l (env.rescaleError l.forwardPredictedState theErrorRescaling)
                  (Trajectory.new t.seed env.thePropagator2Direction)).1.1
                (smoothLast env l (env.rescaleError l.forwardPredictedState theErrorRescaling)
                  (Trajectory.new t.seed env.thePropagator2Direction)).1.2).2 ++
              (smoothFirst env f currTsos myTraj).2)) := by
  have hlast : (f :: (mid ++ [l])).getLast? = some l := by
    rw [← List.cons_append, List.getLast?_append]; simp
  have hint := interior_split f l mid
  have hlen : ¬ (mid.length + 1 + 1 < 2) := by omega
  simp only [smoothRun, Trajectory.empty, Trajectory.measurements, h, hint, hlast,
    List.head?_cons, List.isEmpty_cons, List.length_cons, List.length_append,
    List.length_singleton]
  simp [hlen]

/-- With fewer than 2 measurements `smooth` returns the empty list, having at
most asked the backward propagator for its direction. -/
theorem smoothRun_short (env : Env) (t : Trajectory) (h : t.measurements.length < 2) :
    (smoothRun env t).1 = [] ∧ ∀ c ∈ (smoothRun env t).2, c = Call.directionOpposite := by
  simp only [smoothRun]
  split
  · simp
  · simp [h, called]

theorem smoothFirst_length_le (env : Env) (front : TM) (currTsos : TSOS) (myTraj : Trajectory) :
    (smoothFirst env front currTsos myTraj).1.length ≤ 1 := by
  unfold smoothFirst
  simp only [called_fst]
  split
  · simp
  · split <;> simp

theorem smoothRun_length_le (env : Env) (t : Trajectory) : (smoothRun env t).1.length ≤ 1 := by
  by_cases h : t.measurements.length < 2
  · simp [(smoothRun_short env t h).1]
  · obtain ⟨f, mid, l, hsplit⟩ := two_le_length_split t.measurements (by omega)
    rw [smoothRun_split env t f l mid hsplit, called_fst]
    split
    · simp
    · split
      · simp
      · exact smoothFirst_length_le env f _ _

theorem fitRun_length_le (env : Env) (seed : TrajectorySeed) (hits : List RecHit) (st : TSOS) :
    (fitRun env seed hits st).1.length ≤ 1 := by
  simp only [fitRun]
  split
  · simp
  · split
    · simp
    · split <;> simp

theorem fitTrajectoryRun_length_le (env : Env) (t : Trajectory) :
    (fitTrajectoryRun env t).1.length ≤ 1 := by
  unfold fitTrajectoryRun
  split
  · simp
  · split
    · simp
    · exact fitRun_length_le env _ _ _

theorem smoothAllRun_nil (env : Env) : smoothAllRun env [] = ([], []) := rfl

theorem smoothAllRun_singleton (env : Env) (t : Trajectory) :
    smoothAllRun env [t] = smoothRun env t := by
  simp [smoothAllRun]

theorem smoothAllRun_length_le (env : Env) (tc : List Trajectory) (h : tc.length ≤ 1) :
    (smoothAllRun env tc).1.length ≤ 1 := by
  match tc, h with
  | [], _ => simp [smoothAllRun]
  | [t], _ =>
    rw [smoothAllRun_singleton]
    exact smoothRun_length_le env t

/-! ## The reverse walk -/

theorem smoothLoop_nil (env : Env) (curr : TSOS) (traj : Trajectory) :
    smoothLoop env [] curr traj = (some (curr, traj), []) := rfl

theorem smoothLoop_cons_none (env : Env) (itm : TM) (rest : List TM) (curr : TSOS)
    (traj : Trajectory) (h : (smoothStep env itm curr traj).1 = none) :
    smoothLoop env (itm :: rest) curr traj = (none, (smoothStep env itm curr traj).2) := by
  rcases hs : smoothStep env itm curr traj with ⟨_ | ⟨c, tr⟩, calls⟩
  · simp [smoothLoop, hs]
  · simp [hs] at h

theorem smoothLoop_cons_some (env : Env) (itm : TM) (rest : List TM) (curr c : TSOS)
    (traj tr : Trajectory) (h : (smoothStep env itm curr traj).1 = some (c, tr)) :
    smoothLoop env (itm :: rest) curr traj =
      ((smoothLoop env rest c tr).1,
        (smoothStep env itm curr traj).2 ++ (smoothLoop env rest c tr).2) := by
  rcases hs : smoothStep env itm curr traj with ⟨_ | ⟨c0, tr0⟩, calls⟩
  · simp [hs] at h
  · simp only [hs, Option.some.injEq, Prod.mk.injEq] at h
    obtain ⟨rfl, rfl⟩ := h
    simp [smoothLoop, hs]

/-- What a body run that does not return early has done. -/
theorem smoothStep_some (env : Env) (itm : TM) (curr c : TSOS) (traj tr : Trajectory)
    (h : (smoothStep env itm curr traj).1 = some (c, tr)) :
    (env.thePropagator2 curr itm.recHit.surface).isValid = true ∧
    c = (if itm.recHit.isValid then
          env.theUpdator (env.thePropagator2 curr itm.recHit.surface) itm.recHit
        else env.thePropagator2 curr itm.recHit.surface) ∧
    ∃ tm, tr = { traj with theData := traj.theData ++ [tm] } ∧ tm.recHit = itm.recHit := by
  simp only [smoothStep] at h
  split_ifs at h <;>
    simp_all [called, Trajectory.push, Trajectory.push1, TM.ofStates, TM.recHit]
  all_goals
    obtain ⟨rfl, rfl⟩ := h
    exact ⟨_, rfl, rfl⟩

theorem smoothStep_propagate_call (env : Env) (itm : TM) (curr : TSOS) (traj : Trajectory)
    (s : TSOS) (surf : Surface)
    (h : Call.propagateOpposite s surf ∈ (smoothStep env itm curr traj).2) :
    s = curr ∧ surf = itm.recHit.surface := by
  simp only [smoothStep] at h
  split_ifs at h <;> simp_all [called]

theorem smoothStep_update_call (env : Env) (itm : TM) (curr : TSOS) (traj : Trajectory)
    (s : TSOS) (hit : RecHit)
    (h : Call.update s hit ∈ (smoothStep env itm curr traj).2) :
    s = env.thePropagator2 curr itm.recHit.surface ∧ hit = itm.recHit ∧
    itm.recHit.isValid = true := by
  simp only [smoothStep] at h
  split_ifs at h <;> simp_all [called]

/-- A backward propagation of the walk that yields an invalid state ends the walk. -/
theorem smoothLoop_invalid_propagation (env : Env) :
    ∀ (itms : List TM) (curr : TSOS) (traj : Trajectory) (s : TSOS) (surf : Surface),
      Call.propagateOpposite s surf ∈ (smoothLoop env itms curr traj).2 →
      (env.thePropagator2 s surf).isValid = false →
      (smoothLoop env itms curr traj).1 = none
  | [], _, _, _, _ => by simp [smoothLoop]
  | itm :: rest, curr, traj, s, surf => by
    intro hmem hinv
    rcases hstep : (smoothStep env itm curr traj).1 with _ | ⟨c, tr⟩
    · rw [smoothLoop_cons_none env itm rest curr traj hstep]
    · rw [smoothLoop_cons_some env itm rest curr c traj tr hstep] at hmem ⊢
      simp only [List.mem_append] at hmem
      rcases hmem with hmem | hmem
      · obtain ⟨rfl, rfl⟩ := smoothStep_propagate_call env itm curr traj s surf hmem
        have := (smoothStep_some env itm s c traj tr hstep).1
        simp [this] at hinv
      · exact smoothLoop_invalid_propagation env rest c tr s surf hmem hinv

/-- The walk propagates to the surfaces of the measurements it visits only. -/
theorem smoothLoop_propagate_surface (env : Env) :
    ∀ (itms : List TM) (curr : TSOS) (traj : Trajectory) (s : TSOS) (surf : Surface),
      Call.propagateOpposite s surf ∈ (smoothLoop env itms curr traj).2 →
      ∃ m ∈ itms, m.recHit.surface = surf
  | [], _, _, _, _ => by simp [smoothLoop]
  | itm :: rest, curr, traj, s, surf => by
    intro hmem
    rcases hstep : (smoothStep env itm curr traj).1 with _ | ⟨c, tr⟩
    · rw [smoothLoop_cons_none env itm rest curr traj hstep] at hmem
      exact ⟨itm, by simp, (smoothStep_propagate_call env itm curr traj s surf hmem).2.symm⟩
    · rw [smoothLoop_cons_some env itm rest curr c traj tr hstep] at hmem
      simp only [List.mem_append] at hmem
      rcases hmem with hmem | hmem
      · exact ⟨itm, by simp, (smoothStep_propagate_call env itm curr traj s surf hmem).2.symm⟩
      · obtain ⟨m, hm, hs⟩ := smoothLoop_propagate_surface env rest c tr s surf hmem
        exact ⟨m, by simp [hm], hs⟩

theorem smoothLast_no_propagate_call (env : Env) (back : TM) (pred : TSOS) (traj : Trajectory)
    (s : TSOS) (surf : Surface) :
    Call.propagateOpposite s surf ∉ (smoothLast env back pred traj).2 := by
  unfold smoothLast
  split <;> simp [called]

theorem smoothFirst_propagate_call (env : Env) (front : TM) (curr : TSOS) (traj : Trajectory)
    (s : TSOS) (surf : Surface)
    (h : Call.propagateOpposite s surf ∈ (smoothFirst env front curr traj).2) :
    s = curr ∧ surf = front.recHit.surface := by
  simp only [smoothFirst] at h
  split_ifs at h <;> simp_all [called]

theorem smoothFirst_invalid_propagation (env : Env) (front : TM) (curr : TSOS)
    (traj : Trajectory) (h : (env.thePropagator2 curr front.recHit.surface).isValid = false) :
    (smoothFirst env front curr traj).1 = [] := by
  simp [smoothFirst, h]

/-! ## The three outcomes of `smooth` on two measurements or more -/

theorem smoothRun_of_invalid_rescaled (env : Env) (t : Trajectory) (f l : TM) (mid : List TM)
    (h : t.theData = f :: (mid ++ [l]))
    (hpred : (env.rescaleError l.forwardPredictedState theErrorRescaling).isValid = false) :
    smoothRun env t = ([], [Call.directionOpposite]) := by
  rw [smoothRun_split env t f l mid h]
  simp [hpred, called]

theorem smoothRun_of_walk_none (env : Env) (t : Trajectory) (f l : TM) (mid : List TM)
    (h : t.theData = f :: (mid ++ [l]))
    (pred : TSOS) (hpred : pred = env.rescaleError l.forwardPredictedState theErrorRescaling)
    (hvalid : pred.isValid = true)
    (last : (TSOS × Trajectory) × List Call)
    (hlast : last = smoothLast env l pred (Trajectory.new t.seed env.thePropagator2Direction))
    (walk : Option (TSOS × Trajectory) × List Call)
    (hwalk : walk = smoothLoop env mid.reverse last.1.1 last.1.2)
    (hw : walk.1 = none) :
    smoothRun env t = ([], Call.directionOpposite :: (last.2 ++ walk.2)) := by
  subst hpred hlast hwalk
  rw [smoothRun_split env t f l mid h]
  simp only [hvalid, hw]
  simp [called]

theorem smoothRun_of_walk_some (env : Env) (t : Trajectory) (f l : TM) (mid : List TM)
    (h : t.theData = f :: (mid ++ [l]))
    (pred : TSOS) (hpred : pred = env.rescaleError l.forwardPredictedState theErrorRescaling)
    (hvalid : pred.isValid = true)
    (last : (TSOS × Trajectory) × List Call)
    (hlast : last = smoothLast env l pred (Trajectory.new t.seed env.thePropagator2Direction))
    (walk : Option (TSOS × Trajectory) × List Call)
    (hwalk : walk = smoothLoop env mid.reverse last.1.1 last.1.2)
    (c : TSOS) (tr : Trajectory) (hw : walk.1 = some (c, tr)) :
    smoothRun env t =
      ((smoothFirst env f c tr).1,
        Call.directionOpposite :: (last.2 ++ walk.2 ++ (smoothFirst env f c tr).2)) := by
  subst hpred hlast hwalk
  rw [smoothRun_split env t f l mid h]
  simp only [hvalid, hw]
  simp [called]

/-! ## The forward loop -/

theorem fitLoop_handed_hits (env : Env) :
    ∀ (hits : List RecHit) (pred : TSOS) (traj : Trajectory),
      (fitLoop env hits pred traj).2.filterMap Call.handedHit = hits
  | [], _, _ => by simp [fitLoop]
  | ihit :: rest, pred, traj => by
    simp only [fitLoop]
    split_ifs <;>
      simp [called, Call.handedHit, TM.ofPredicted, TM.recHit,
        fitLoop_handed_hits env rest]

theorem fitLoop_recHits (env : Env)
    (hpush : ∀ meas traj,
      (env.theTrajectoryUpdator meas traj).traj.recHits = traj.recHits ++ [meas.recHit]) :
    ∀ (hits : List RecHit) (pred : TSOS) (traj : Trajectory),
      (fitLoop env hits pred traj).1.2.recHits = traj.recHits ++ hits
  | [], _, _ => by simp [fitLoop]
  | ihit :: rest, pred, traj => by
    simp only [fitLoop]
    split_ifs <;>
      simp [called, fitLoop_recHits env hpush rest, hpush, TM.ofPredicted, TM.recHit]

theorem fitRun_of_valid (env : Env) (seed : TrajectorySeed) (hits : List RecHit)
    (firstPredTsos : TSOS) (hne : hits ≠ []) (hvalid : firstPredTsos.isValid = true) :
    fitRun env seed hits firstPredTsos =
      called Call.directionAlong
        (if !(fitLoop env hits firstPredTsos
            (Trajectory.new seed env.thePropagator1Direction)).1.2.isValid then
          ([], (fitLoop env hits firstPredTsos
            (Trajectory.new seed env.thePropagator1Direction)).2)
        else
          ([(fitLoop env hits firstPredTsos
              (Trajectory.new seed env.thePropagator1Direction)).1.2],
            (fitLoop env hits firstPredTsos
              (Trajectory.new seed env.thePropagator1Direction)).2)) := by
  have hne2 : hits.isEmpty = false := by
    cases hits with
    | nil => exact absurd rfl hne
    | cons _ _ => rfl
  simp only [fitRun, hne2, hvalid]
  simp

/-! ## What the smoother pushes -/

theorem smoothLast_pushes (env : Env) (back : TM) (pred : TSOS) (traj : Trajectory) :
    ∃ tm, (smoothLast env back pred traj).1.2 = { traj with theData := traj.theData ++ [tm] } ∧
      tm.recHit = back.recHit := by
  unfold smoothLast
  split
  · exact ⟨_, rfl, rfl⟩
  · exact ⟨_, rfl, rfl⟩

theorem smoothLoop_pushes (env : Env) :
    ∀ (itms : List TM) (curr c : TSOS) (traj tr : Trajectory),
      (smoothLoop env itms curr traj).1 = some (c, tr) →
      ∃ tms, tr = { traj with theData := traj.theData ++ tms } ∧
        tms.map TM.recHit = itms.map TM.recHit
  | [], curr, c, traj, tr => by
    intro h
    simp only [smoothLoop_nil, Option.some.injEq, Prod.mk.injEq] at h
    exact ⟨[], by simp [← h.2], rfl⟩
  | itm :: rest, curr, c, traj, tr => by
    intro h
    rcases hstep : (smoothStep env itm curr traj).1 with _ | ⟨c1, tr1⟩
    · rw [smoothLoop_cons_none env itm rest curr traj hstep] at h
      simp at h
    · rw [smoothLoop_cons_some env itm rest curr c1 traj tr1 hstep] at h
      obtain ⟨tms, htr, hmap⟩ := smoothLoop_pushes env rest c1 c tr1 tr h
      obtain ⟨_, _, tm, htr1, htm⟩ := smoothStep_some env itm curr c1 traj tr1 hstep
      refine ⟨tm :: tms, ?_, by simp [htm, hmap]⟩
      rw [htr, htr1]
      simp

theorem smoothFirst_pushes (env : Env) (front : TM) (curr : TSOS) (traj r : Trajectory)
    (h : (smoothFirst env front curr traj).1 = [r]) :
    ∃ tm, r = { traj with theData := traj.theData ++ [tm] } ∧ tm.recHit = front.recHit := by
  simp only [smoothFirst] at h
  split_ifs at h <;> simp [called] at h
  · exact ⟨_, h.symm, rfl⟩
  · exact ⟨_, h.symm, rfl⟩

/-- A successful `smooth` has walked the measurements from the last to the first. -/
theorem smoothRun_pushes (env : Env) (t r : Trajectory) (h : (smoothRun env t).1 = [r]) :
    ∃ tms, r = { Trajectory.new t.seed env.thePropagator2Direction with theData := tms } ∧
      tms.map TM.recHit = (t.measurements.map TM.recHit).reverse := by
  by_cases hlen : t.measurements.length < 2
  · simp [smoothRun_short env t hlen] at h
  · obtain ⟨f, mid, l, hsplit⟩ := two_le_length_split t.measurements (by omega)
    rcases hv : (env.rescaleError l.forwardPredictedState theErrorRescaling).isValid
    · simp [smoothRun_of_invalid_rescaled env t f l mid hsplit hv] at h
    rcases hw : (smoothLoop env mid.reverse
        (smoothLast env l (env.rescaleError l.forwardPredictedState theErrorRescaling)
          (Trajectory.new t.seed env.thePropagator2Direction)).1.1
        (smoothLast env l (env.rescaleError l.forwardPredictedState theErrorRescaling)
          (Trajectory.new t.seed env.thePropagator2Direction)).1.2).1 with _ | ⟨c, tr⟩
    · simp [smoothRun_of_walk_none env t f l mid hsplit _ rfl hv _ rfl _ rfl hw] at h
    · rw [smoothRun_of_walk_some env t f l mid hsplit _ rfl hv _ rfl _ rfl c tr hw] at h
      obtain ⟨tmF, hr, hF⟩ := smoothFirst_pushes env f c tr r h
      obtain ⟨tms, htr, hmap⟩ := smoothLoop_pushes env _ _ _ _ _ hw
      obtain ⟨tmL, hlast, hL⟩ := smoothLast_pushes env l
        (env.rescaleError l.forwardPredictedState theErrorRescaling)
        (Trajectory.new t.seed env.thePropagator2Direction)
      refine ⟨tmL :: (tms ++ [tmF]), ?_, ?_⟩
      · rw [hr, htr, hlast]
        simp [Trajectory.new]
      · rw [hsplit]
        simp [hL, hF, hmap]

/-! ## The results of the Kalman updator in the smoother -/

theorem smoothLast_update_call (env : Env) (back : TM) (pred : TSOS) (traj : Trajectory)
    (s : TSOS) (hit : RecHit) (h : Call.update s hit ∈ (smoothLast env back pred traj).2) :
    (smoothLast env back pred traj).1.1 = env.theUpdator s hit := by
  unfold smoothLast at h ⊢
  split at h <;> simp_all [called]

theorem smoothFirst_update_call (env : Env) (front : TM) (curr : TSOS) (traj : Trajectory)
    (s : TSOS) (hit : RecHit) (h : Call.update s hit ∈ (smoothFirst env front curr traj).2) :
    hit = front.recHit ∧
    (smoothFirst env front curr traj).1 =
      [traj.push
        (TM.ofStates front.forwardPredictedState s (env.theUpdator s hit) hit
          (env.theEstimator s hit).2 front.layer)
        front.estimate] := by
  simp only [smoothFirst] at h ⊢
  split_ifs at h ⊢ <;> simp_all [called]

theorem smoothFirst_some_valid (env : Env) (front : TM) (curr : TSOS) (traj r : Trajectory)
    (h : (smoothFirst env front curr traj).1 = [r]) :
    (env.thePropagator2 curr front.recHit.surface).isValid = true := by
  rcases hv : (env.thePropagator2 curr front.recHit.surface).isValid
  · simp [smoothFirst_invalid_propagation env front curr traj hv] at h
  · rfl

/-- With a backward propagator that hands back an invalid state for an invalid
one, a walk that ends on a valid current state started from a valid one and has
seen valid results of the Kalman updator only. -/
theorem smoothLoop_updates_valid (env : Env)
    (hprop : ∀ s surf, s.isValid = false → (env.thePropagator2 s surf).isValid = false) :
    ∀ (itms : List TM) (curr c : TSOS) (traj tr : Trajectory),
      (smoothLoop env itms curr traj).1 = some (c, tr) → c.isValid = true →
      curr.isValid = true ∧
      ∀ s hit, Call.update s hit ∈ (smoothLoop env itms curr traj).2 →
        (env.theUpdator s hit).isValid = true
  | [], curr, c, traj, tr => by
    intro h hc
    simp only [smoothLoop_nil, Option.some.injEq, Prod.mk.injEq] at h
    simp [smoothLoop_nil, h.1, hc]
  | itm :: rest, curr, c, traj, tr => by
    intro h hc
    rcases hstep : (smoothStep env itm curr traj).1 with _ | ⟨c1, tr1⟩
    · rw [smoothLoop_cons_none env itm rest curr traj hstep] at h
      simp at h
    · rw [smoothLoop_cons_some env itm rest curr c1 traj tr1 hstep] at h ⊢
      obtain ⟨hc1, hrest⟩ := smoothLoop_updates_valid env hprop rest c1 c tr1 tr h hc
      obtain ⟨hpred, hc1eq, _⟩ := smoothStep_some env itm curr c1 traj tr1 hstep
      constructor
      · rcases hcv : curr.isValid
        · simp [hprop curr _ hcv] at hpred
        · rfl
      · intro s hit hmem
        simp only [List.mem_append] at hmem
        rcases hmem with hmem | hmem
        · obtain ⟨rfl, rfl, hval⟩ := smoothStep_update_call env itm curr traj s hit hmem
          simp only [hval, if_true] at hc1eq
          rw [← hc1eq]
          exact hc1
        · exact hrest s hit hmem

/-! ## The hits of a refitted trajectory -/

theorem fitRun_recHits (env : Env)
    (hpush : ∀ meas traj,
      (env.theTrajectoryUpdator meas traj).traj.recHits = traj.recHits ++ [meas.recHit])
    (seed : TrajectorySeed) (hits : List RecHit) (st : TSOS) (t : Trajectory)
    (ht : t ∈ (fitRun env seed hits st).1) : t.recHits = hits := by
  by_cases hne : hits = []
  · subst hne
    simp [fitRun] at ht
  · rcases hv : st.isValid
    · simp [fitRun, hv, called, hne] at ht
    · rw [fitRun_of_valid env seed hits st hne hv, called_fst] at ht
      split at ht
      · simp at ht
      · simp only [List.mem_singleton] at ht
        subst ht
        rw [fitLoop_recHits env hpush]
        simp [Trajectory.new, Trajectory.recHits]

theorem smoothRun_recHits (env : Env) (t r : Trajectory) (hr : r ∈ (smoothRun env t).1) :
    r.recHits = t.recHits.reverse := by
  have hlen := smoothRun_length_le env t
  have hone : (smoothRun env t).1 = [r] := by
    cases hs : (smoothRun env t).1 with
    | nil => simp [hs] at hr
    | cons a as =>
      rw [hs] at hr hlen
      cases as with
      | nil =>
        simp only [List.mem_singleton] at hr
        rw [hr]
      | cons _ _ => simp at hlen
  obtain ⟨tms, hrr, hmap⟩ := smoothRun_pushes env t r hone
  rw [hrr]
  simpa [Trajectory.recHits, Trajectory.measurements] using hmap

theorem trajectoriesRun_recHits (env : Env)
    (hpush : ∀ meas traj,
      (env.theTrajectoryUpdator meas traj).traj.recHits = traj.recHits ++ [meas.recHit])
    (seed : TrajectorySeed) (hits : List RecHit) (st : TSOS) (r : Trajectory)
    (hr : r ∈ (trajectoriesRun env seed hits st).1) : r.recHits = hits.reverse := by
  simp only [trajectoriesRun] at hr
  split at hr
  · simp at hr
  · simp only at hr
    have hlen := fitRun_length_le env seed hits (env.arbitraryError st)
    cases hf : (fitRun env seed hits (env.arbitraryError st)).1 with
    | nil => simp [hf, smoothAllRun] at hr
    | cons t ts =>
      rw [hf] at hlen
      cases ts with
      | cons _ _ => simp at hlen
      | nil =>
        rw [hf, smoothAllRun_singleton] at hr
        have ht := fitRun_recHits env hpush seed hits (env.arbitraryError st) t
          (by rw [hf]; simp)
        rw [smoothRun_recHits env t r hr, ht]

/-! ## The forward loop, hit by hit -/

theorem fitLoop_append (env : Env) :
    ∀ (xs ys : List RecHit) (pred : TSOS) (traj : Trajectory),
      fitLoop env (xs ++ ys) pred traj =
        ((fitLoop env ys (fitLoop env xs pred traj).1.1 (fitLoop env xs pred traj).1.2).1,
          (fitLoop env xs pred traj).2 ++
          (fitLoop env ys (fitLoop env xs pred traj).1.1 (fitLoop env xs pred traj).1.2).2)
  | [], ys, pred, traj => by simp [fitLoop]
  | x :: xs, ys, pred, traj => by
    simp only [List.cons_append, fitLoop]
    split_ifs <;> simp [called, fitLoop_append env xs ys]

theorem fitLoop_singleton (env : Env) (ihit : RecHit) (pred : TSOS) (traj : Trajectory) :
    fitLoop env [ihit] pred traj =
      ((if (env.theTrajectoryUpdator (TM.ofPredicted pred ihit) traj).first then
          (env.theTrajectoryUpdator (TM.ofPredicted pred ihit) traj).second
        else env.thePropagator1 pred ihit.surface,
        (env.theTrajectoryUpdator (TM.ofPredicted pred ihit) traj).traj),
      Call.trajectoryUpdate (TM.ofPredicted pred ihit) traj ::
        (if (env.theTrajectoryUpdator (TM.ofPredicted pred ihit) traj).first then []
        else [Call.propagateAlong pred ihit.surface])) := by
  simp only [fitLoop]
  split_ifs <;> simp [called]

/-! ## The fields the smoother leaves alone -/

theorem smoothLast_frame (env : Env) (back : TM) (pred : TSOS) (traj : Trajectory) :
    ∃ tm, (smoothLast env back pred traj).1.2 = { traj with theData := traj.theData ++ [tm] } ∧
      tm.frame = back.frame := by
  unfold smoothLast
  split
  · exact ⟨_, rfl, rfl⟩
  · exact ⟨_, rfl, rfl⟩

theorem smoothStep_frame (env : Env) (itm : TM) (curr c : TSOS) (traj tr : Trajectory)
    (h : (smoothStep env itm curr traj).1 = some (c, tr)) :
    ∃ tm, tr = { traj with theData := traj.theData ++ [tm] } ∧ tm.frame = itm.frame := by
  simp only [smoothStep] at h
  split_ifs at h <;>
    simp_all [called, Trajectory.push, Trajectory.push1]
  all_goals
    obtain ⟨_, rfl⟩ := h
    exact ⟨_, rfl, rfl⟩

theorem smoothLoop_frame (env : Env) :
    ∀ (itms : List TM) (curr c : TSOS) (traj tr : Trajectory),
      (smoothLoop env itms curr traj).1 = some (c, tr) →
      ∃ tms, tr = { traj with theData := traj.theData ++ tms } ∧
        tms.map TM.frame = itms.map TM.frame
  | [], curr, c, traj, tr => by
    intro h
    simp only [smoothLoop_nil, Option.some.injEq, Prod.mk.injEq] at h
    exact ⟨[], by simp [← h.2], rfl⟩
  | itm :: rest, curr, c, traj, tr => by
    intro h
    rcases hstep : (smoothStep env itm curr traj).1 with _ | ⟨c1, tr1⟩
    · rw [smoothLoop_cons_none env itm rest curr traj hstep] at h
      simp at h
    · rw [smoothLoop_cons_some env itm rest curr c1 traj tr1 hstep] at h
      obtain ⟨tms, htr, hmap⟩ := smoothLoop_frame env rest c1 c tr1 tr h
      obtain ⟨tm, htr1, htm⟩ := smoothStep_frame env itm curr c1 traj tr1 hstep
      refine ⟨tm :: tms, ?_, by simp [htm, hmap]⟩
      rw [htr, htr1]
      simp

theorem smoothFirst_frame (env : Env) (front : TM) (curr : TSOS) (traj r : Trajectory)
    (h : (smoothFirst env front curr traj).1 = [r]) :
    ∃ tm, r = { traj with theData := traj.theData ++ [tm] } ∧ tm.frame = front.frame := by
  simp only [smoothFirst] at h
  split_ifs at h <;> simp [called] at h
  · exact ⟨_, h.symm, rfl⟩
  · exact ⟨_, h.symm, rfl⟩

/-- A successful `smooth` rebuilds the measurements from the last to the first
and keeps the forward-predicted state, the hit and the layer of each. -/
theorem smoothRun_frame (env : Env) (t r : Trajectory) (h : (smoothRun env t).1 = [r]) :
    2 ≤ t.measurements.length ∧
    ∃ tms, r = { Trajectory.new t.seed env.thePropagator2Direction with theData := tms } ∧
      tms.map TM.frame = (t.measurements.map TM.frame).reverse := by
  by_cases hlen : t.measurements.length < 2
  · simp [(smoothRun_short env t hlen).1] at h
  · refine ⟨by omega, ?_⟩
    obtain ⟨f, mid, l, hsplit⟩ := two_le_length_split t.measurements (by omega)
    rcases hv : (env.rescaleError l.forwardPredictedState theErrorRescaling).isValid
    · simp [smoothRun_of_invalid_rescaled env t f l mid hsplit hv] at h
    rcases hw : (smoothLoop env mid.reverse
        (smoothLast env l (env.rescaleError l.forwardPredictedState theErrorRescaling)
          (Trajectory.new t.seed env.thePropagator2Direction)).1.1
        (smoothLast env l (env.rescaleError l.forwardPredictedState theErrorRescaling)
          (Trajectory.new t.seed env.thePropagator2Direction)).1.2).1 with _ | ⟨c, tr⟩
    · simp [smoothRun_of_walk_none env t f l mid hsplit _ rfl hv _ rfl _ rfl hw] at h
    · rw [smoothRun_of_walk_some env t f l mid hsplit _ rfl hv _ rfl _ rfl c tr hw] at h
      obtain ⟨tmF, hr, hF⟩ := smoothFirst_frame env f c tr r h
      obtain ⟨tms, htr, hmap⟩ := smoothLoop_frame env _ _ _ _ _ hw
      obtain ⟨tmL, hlast, hL⟩ := smoothLast_frame env l
        (env.rescaleError l.forwardPredictedState theErrorRescaling)
        (Trajectory.new t.seed env.thePropagator2Direction)
      refine ⟨tmL :: (tms ++ [tmF]), ?_, ?_⟩
      · rw [hr, htr, hlast]
        simp [Trajectory.new]
      · rw [hsplit]
        simp [hL, hF, hmap]

/-! ## The reverse walk, measurement by measurement -/

/-- The body of the walk at a measurement with a valid hit. -/
theorem smoothStep_valid_hit (env : Env) (itm : TM) (curr : TSOS) (traj : Trajectory)
    (hhit : itm.recHit.isValid = true) :
    (smoothStep env itm curr traj).1 =
      if !(env.thePropagator2 curr itm.recHit.surface).isValid then none
      else if !(env.combiner (env.thePropagator2 curr itm.recHit.surface)
          itm.forwardPredictedState).isValid then none
      else if !(env.combiner itm.updatedState
          (env.thePropagator2 curr itm.recHit.surface)).isValid then none
      else
        some (env.theUpdator (env.thePropagator2 curr itm.recHit.surface) itm.recHit,
          traj.push
            (TM.ofStates itm.forwardPredictedState (env.thePropagator2 curr itm.recHit.surface)
              (env.combiner itm.updatedState (env.thePropagator2 curr itm.recHit.surface))
              itm.recHit
              (env.theEstimator
                (env.combiner (env.thePropagator2 curr itm.recHit.surface)
                  itm.forwardPredictedState) itm.recHit).2
              itm.layer)
            itm.estimate) := by
  simp only [smoothStep, hhit]
  split_ifs <;> simp_all [called]

/-- The body of the walk at a measurement with an invalid hit, and its calls. -/
theorem smoothStep_invalid_hit (env : Env) (itm : TM) (curr : TSOS) (traj : Trajectory)
    (hhit : itm.recHit.isValid = false) :
    (smoothStep env itm curr traj).1 =
      (if !(env.thePropagator2 curr itm.recHit.surface).isValid then none
      else if !(env.combiner (env.thePropagator2 curr itm.recHit.surface)
          itm.forwardPredictedState).isValid then none
      else
        some (env.thePropagator2 curr itm.recHit.surface,
          traj.push1
            (TM.ofStates itm.forwardPredictedState (env.thePropagator2 curr itm.recHit.surface)
              (env.combiner (env.thePropagator2 curr itm.recHit.surface)
                itm.forwardPredictedState)
              itm.recHit itm.estimate itm.layer))) ∧
    (smoothStep env itm curr traj).2 =
      Call.propagateOpposite curr itm.recHit.surface ::
        (if !(env.thePropagator2 curr itm.recHit.surface).isValid then []
        else [Call.combine (env.thePropagator2 curr itm.recHit.surface)
          itm.forwardPredictedState]) := by
  simp only [smoothStep, hhit]
  split_ifs <;> simp_all [called]

theorem smoothLoop_append (env : Env) :
    ∀ (xs ys : List TM) (curr : TSOS) (traj : Trajectory),
      smoothLoop env (xs ++ ys) curr traj =
        match (smoothLoop env xs curr traj).1 with
        | none => (none, (smoothLoop env xs curr traj).2)
        | some (c, tr) =>
          ((smoothLoop env ys c tr).1,
            (smoothLoop env xs curr traj).2 ++ (smoothLoop env ys c tr).2)
  | [], ys, curr, traj => by simp [smoothLoop_nil]
  | x :: xs, ys, curr, traj => by
    rcases hstep : (smoothStep env x curr traj).1 with _ | ⟨c1, tr1⟩
    · rw [List.cons_append, smoothLoop_cons_none env x (xs ++ ys) curr traj hstep,
        smoothLoop_cons_none env x xs curr traj hstep]
    · rw [List.cons_append, smoothLoop_cons_some env x (xs ++ ys) curr c1 traj tr1 hstep,
        smoothLoop_cons_some env x xs curr c1 traj tr1 hstep, smoothLoop_append env xs ys c1 tr1]
      rcases hxs : (smoothLoop env xs c1 tr1).1 with _ | ⟨c2, tr2⟩ <;> simp

theorem smoothLoop_singleton (env : Env) (itm : TM) (curr : TSOS) (traj : Trajectory) :
    smoothLoop env [itm] curr traj = smoothStep env itm curr traj := by
  rcases hstep : (smoothStep env itm curr traj).1 with _ | ⟨c1, tr1⟩
  · rw [smoothLoop_cons_none env itm [] curr traj hstep]
    exact Prod.ext hstep.symm rfl
  · rw [smoothLoop_cons_some env itm [] curr c1 traj tr1 hstep, smoothLoop_nil]
    exact Prod.ext hstep.symm (by simp)

/-- A walk that gets through `xs ++ ys` has got through `xs` first. -/
theorem smoothLoop_append_some (env : Env) (xs ys : List TM) (curr c : TSOS)
    (traj tr : Trajectory) (h : (smoothLoop env (xs ++ ys) curr traj).1 = some (c, tr)) :
    ∃ c1 tr1, (smoothLoop env xs curr traj).1 = some (c1, tr1) ∧
      (smoothLoop env ys c1 tr1).1 = some (c, tr) ∧
      (smoothLoop env (xs ++ ys) curr traj).2 =
        (smoothLoop env xs curr traj).2 ++ (smoothLoop env ys c1 tr1).2 := by
  rw [smoothLoop_append] at h ⊢
  rcases hxs : (smoothLoop env xs curr traj).1 with _ | ⟨c1, tr1⟩
  · simp [hxs] at h
  · simp only [hxs] at h ⊢
    exact ⟨c1, tr1, rfl, h, rfl⟩

/-- A walk that returns early on `xs` returns early on `xs ++ ys`. -/
theorem smoothLoop_append_none (env : Env) (xs ys : List TM) (curr : TSOS)
    (traj : Trajectory) (h : (smoothLoop env xs curr traj).1 = none) :
    (smoothLoop env (xs ++ ys) curr traj).1 = none := by
  rw [smoothLoop_append]
  simp [h]

theorem smoothLoop_data_length (env : Env) (itms : List TM) (curr c : TSOS)
    (traj tr : Trajectory) (h : (smoothLoop env itms curr traj).1 = some (c, tr)) :
    ∃ tms, tr.theData = traj.theData ++ tms ∧ tms.length = itms.length := by
  obtain ⟨tms, htr, hmap⟩ := smoothLoop_pushes env itms curr c traj tr h
  refine ⟨tms, by rw [htr], ?_⟩
  have := congrArg List.length hmap
  simpa using this

/-! ## `smooth` through its intermediate states -/

theorem measurements_shape (t : Trajectory) (f l : TM) (hlen : 2 ≤ t.measurements.length)
    (hfirst : t.measurements.head? = some f) (hlast : t.measurements.getLast? = some l) :
    ∃ mid, t.theData = f :: (mid ++ [l]) ∧ interior t.measurements = mid.reverse := by
  obtain ⟨f1, mid, l1, hsplit⟩ := two_le_length_split t.measurements hlen
  have hf : f1 = f := by
    rw [hsplit] at hfirst
    simpa using hfirst
  have hl : l1 = l := by
    rw [hsplit, ← List.cons_append, List.getLast?_concat] at hlast
    simpa using hlast
  subst hf hl
  exact ⟨mid, hsplit, by rw [hsplit]; exact interior_split f1 l1 mid⟩

theorem interior_length (t : Trajectory) :
    (interior t.measurements).length = t.measurements.length - 2 := by
  simp [interior]
  omega

theorem smoothRun_invalid_rescaled (env : Env) (t : Trajectory) (l : TM)
    (hlast : t.measurements.getLast? = some l)
    (hv : (smoothRescaled env l).isValid = false) : (smoothRun env t).1 = [] := by
  by_cases hlen : t.measurements.length < 2
  · exact (smoothRun_short env t hlen).1
  · obtain ⟨f, mid, l1, hsplit⟩ := two_le_length_split t.measurements (by omega)
    have hl : l1 = l := by
      rw [hsplit, ← List.cons_append, List.getLast?_concat] at hlast
      simpa using hlast
    subst hl
    rw [smoothRun_of_invalid_rescaled env t f l1 mid hsplit hv]

theorem smoothRun_after_none (env : Env) (t : Trajectory) (l : TM)
    (hlast : t.measurements.getLast? = some l)
    (hw : smoothAfter env t l (interior t.measurements) = none) : (smoothRun env t).1 = [] := by
  by_cases hlen : t.measurements.length < 2
  · exact (smoothRun_short env t hlen).1
  · obtain ⟨f, mid, l1, hsplit⟩ := two_le_length_split t.measurements (by omega)
    have hl : l1 = l := by
      rw [hsplit, ← List.cons_append, List.getLast?_concat] at hlast
      simpa using hlast
    subst hl
    have hint : interior t.measurements = mid.reverse := by
      rw [hsplit]; exact interior_split f l1 mid
    rw [hint] at hw
    rcases hv : (env.rescaleError l1.forwardPredictedState theErrorRescaling).isValid
    · rw [smoothRun_of_invalid_rescaled env t f l1 mid hsplit hv]
    · rw [smoothRun_of_walk_none env t f l1 mid hsplit _ rfl hv _ rfl _ rfl hw]

theorem smoothRun_after_some (env : Env) (t : Trajectory) (f l : TM)
    (hlen : 2 ≤ t.measurements.length)
    (hfirst : t.measurements.head? = some f) (hlast : t.measurements.getLast? = some l)
    (hv : (smoothRescaled env l).isValid = true) (c : TSOS) (tr : Trajectory)
    (hw : smoothAfter env t l (interior t.measurements) = some (c, tr)) :
    smoothRun env t =
      ((smoothFirst env f c tr).1,
        Call.directionOpposite ::
          ((smoothLast env l (smoothRescaled env l)
              (Trajectory.new t.seed env.thePropagator2Direction)).2 ++
            (smoothLoop env (interior t.measurements) (smoothEntry env t l).1
              (smoothEntry env t l).2).2 ++
            (smoothFirst env f c tr).2)) := by
  obtain ⟨mid, hsplit, hint⟩ := measurements_shape t f l hlen hfirst hlast
  rw [hint] at hw ⊢
  exact smoothRun_of_walk_some env t f l mid hsplit _ rfl hv _ rfl _ rfl c tr hw

/-- A successful `smooth` has a valid rescaled state and a walk that got through. -/
theorem smoothRun_success (env : Env) (t r : Trajectory) (f l : TM)
    (hfirst : t.measurements.head? = some f) (hlast : t.measurements.getLast? = some l)
    (h : (smoothRun env t).1 = [r]) :
    2 ≤ t.measurements.length ∧ (smoothRescaled env l).isValid = true ∧
    ∃ c tr, smoothAfter env t l (interior t.measurements) = some (c, tr) ∧
      (smoothFirst env f c tr).1 = [r] := by
  have hlen : 2 ≤ t.measurements.length := by
    by_contra hlt
    simp [(smoothRun_short env t (by omega)).1] at h
  have hv : (smoothRescaled env l).isValid = true := by
    rcases hv : (smoothRescaled env l).isValid
    · simp [smoothRun_invalid_rescaled env t l hlast hv] at h
    · rfl
  refine ⟨hlen, hv, ?_⟩
  rcases hw : smoothAfter env t l (interior t.measurements) with _ | ⟨c, tr⟩
  · simp [smoothRun_after_none env t l hlast hw] at h
  · rw [smoothRun_after_some env t f l hlen hfirst hlast hv c tr hw] at h
    exact ⟨c, tr, rfl, h⟩

theorem smoothEntry_data (env : Env) (t : Trajectory) (l : TM) :
    ∃ tm, (smoothEntry env t l).2 =
      { Trajectory.new t.seed env.thePropagator2Direction with theData := [tm] } := by
  obtain ⟨tm, h, _⟩ := smoothLast_pushes env l (smoothRescaled env l)
    (Trajectory.new t.seed env.thePropagator2Direction)
  exact ⟨tm, by rw [smoothEntry, h]; rfl⟩

/-- The trajectory the walk holds after `visited` has one measurement for the
last fitted measurement and one for each visited measurement. -/
theorem smoothAfter_data_length (env : Env) (t : Trajectory) (l : TM) (visited : List TM)
    (c : TSOS) (tr : Trajectory) (h : smoothAfter env t l visited = some (c, tr)) :
    tr.theData.length = visited.length + 1 := by
  obtain ⟨tm, hentry⟩ := smoothEntry_data env t l
  obtain ⟨tms, hdata, hlen⟩ := smoothLoop_data_length env visited _ c _ tr h
  rw [hdata, hentry]
  simp [hlen]

/-! ## The two boundary steps of `smooth` -/

theorem smoothLast_result (env : Env) (back : TM) (pred : TSOS) (traj : Trajectory) :
    smoothLast env back pred traj =
      ((if back.recHit.isValid then env.theUpdator pred back.recHit else pred,
        { traj with theData := traj.theData ++
          [if back.recHit.isValid then
            TM.ofStates back.forwardPredictedState pred back.updatedState back.recHit
              back.estimate back.layer
          else TM.ofForward back.forwardPredictedState back.recHit back.estimate back.layer] }),
      if back.recHit.isValid then [Call.update pred back.recHit] else []) := by
  unfold smoothLast
  split <;> simp_all [called, Trajectory.push, Trajectory.push1]

theorem smoothFirst_result (env : Env) (front : TM) (curr : TSOS) (traj : Trajectory) :
    smoothFirst env front curr traj =
      (if !(env.thePropagator2 curr front.recHit.surface).isValid then []
        else
          [{ traj with theData := traj.theData ++
            [if front.recHit.isValid then
              TM.ofStates front.forwardPredictedState
                (env.thePropagator2 curr front.recHit.surface)
                (env.theUpdator (env.thePropagator2 curr front.recHit.surface) front.recHit)
                front.recHit
                (env.theEstimator (env.thePropagator2 curr front.recHit.surface)
                  front.recHit).2
                front.layer
            else
              TM.ofForward front.forwardPredictedState front.recHit front.estimate
                front.layer] }],
      Call.propagateOpposite curr front.recHit.surface ::
        (if !(env.thePropagator2 curr front.recHit.surface).isValid then []
        else if front.recHit.isValid then
          [Call.update (env.thePropagator2 curr front.recHit.surface) front.recHit,
            Call.estimate (env.thePropagator2 curr front.recHit.surface) front.recHit]
        else [])) := by
  simp only [smoothFirst]
  split_ifs <;> simp_all [called, Trajectory.push, Trajectory.push1]

/-! ## The walk at one interior measurement -/

theorem getElem?_after_pushes {α : Type} (xs : List α) (a : α) (ys zs : List α) (k : Nat)
    (hk : xs.length = k) : (((xs ++ [a]) ++ ys) ++ zs)[k]? = some a := by
  subst hk
  rw [List.append_assoc, List.append_assoc, List.getElem?_append_right (le_refl _)]
  simp

/-- A successful `smooth` whose walk goes through `pre`, then `m`, then `post`:
the states around the body run at `m`, and where its measurement ends up. -/
theorem smoothRun_through (env : Env) (t r : Trajectory) (l : TM) (pre post : List TM) (m : TM)
    (hlast : t.measurements.getLast? = some l)
    (hwalk : interior t.measurements = pre ++ m :: post)
    (hsucc : (smoothRun env t).1 = [r]) :
    ∃ c tr c1 tr1, smoothAfter env t l pre = some (c, tr) ∧
      (smoothStep env m c tr).1 = some (c1, tr1) ∧
      smoothAfter env t l (pre ++ [m]) = some (c1, tr1) ∧
      (∀ tm, tr1.theData = tr.theData ++ [tm] → r.measurements[pre.length + 1]? = some tm) ∧
      ∃ after, (smoothRun env t).2 =
        Call.directionOpposite ::
          ((smoothLast env l (smoothRescaled env l)
              (Trajectory.new t.seed env.thePropagator2Direction)).2 ++
            (smoothLoop env pre (smoothEntry env t l).1 (smoothEntry env t l).2).2) ++
          (smoothStep env m c tr).2 ++ after := by
  obtain ⟨f, hf⟩ : ∃ f, t.measurements.head? = some f := by
    cases hm : t.measurements with
    | nil => simp [hm] at hlast
    | cons a _ => exact ⟨a, rfl⟩
  obtain ⟨hlen, hv, cF, trF, hwF, hF⟩ := smoothRun_success env t r f l hf hlast hsucc
  have hrun := smoothRun_after_some env t f l hlen hf hlast hv cF trF hwF
  rw [hwalk] at hwF hrun
  obtain ⟨c, tr, hpre, hrest, hlog1⟩ := smoothLoop_append_some env pre (m :: post) _ cF _ trF hwF
  obtain ⟨c1, tr1, hone, hpost, hlog2⟩ := smoothLoop_append_some env [m] post c cF tr trF hrest
  rw [smoothLoop_singleton] at hone hlog2
  have hlog3 : (smoothLoop env (m :: post) c tr).2 =
      (smoothStep env m c tr).2 ++ (smoothLoop env post c1 tr1).2 := hlog2
  refine ⟨c, tr, c1, tr1, hpre, hone, ?_, ?_, ?_⟩
  · unfold smoothAfter
    rw [smoothLoop_append]
    simp only [hpre, smoothLoop_singleton, hone]
  · intro tm htm
    obtain ⟨tmF, hrF, _⟩ := smoothFirst_pushes env f cF trF r hF
    obtain ⟨tms, htrF, _⟩ := smoothLoop_data_length env post c1 cF tr1 trF hpost
    have hlenTr := smoothAfter_data_length env t l pre c tr hpre
    rw [Trajectory.measurements, hrF]
    simp only [htrF, htm]
    exact getElem?_after_pushes _ _ _ _ _ hlenTr
  · refine ⟨(smoothLoop env post c1 tr1).2 ++ (smoothFirst env f cF trF).2, ?_⟩
    rw [hrun, hlog1, hlog3]
    simp [List.append_assoc]

/-- A body run that returns early ends `smooth` with the empty list. -/
theorem smoothRun_step_none (env : Env) (t : Trajectory) (l : TM) (pre post : List TM) (m : TM)
    (hlast : t.measurements.getLast? = some l)
    (hwalk : interior t.measurements = pre ++ m :: post)
    (c : TSOS) (tr : Trajectory) (hpre : smoothAfter env t l pre = some (c, tr))
    (hstep : (smoothStep env m c tr).1 = none) : (smoothRun env t).1 = [] := by
  apply smoothRun_after_none env t l hlast
  unfold smoothAfter at hpre ⊢
  rw [hwalk, smoothLoop_append]
  simp only [hpre]
  rw [smoothLoop_cons_none env m post c tr hstep]

/-! ## Invalid results of the Kalman updator -/

/-- With a backward propagator that hands back an invalid state for an invalid
one, a logged call of the Kalman updator with an invalid result either comes
with an empty result of `smooth`, or is the call on the first measurement, whose
result is stored in the last measurement of the returned trajectory. -/
theorem smoothRun_invalid_update_call (env : Env) (t : Trajectory) (s : TSOS) (hit : RecHit)
    (hprop : ∀ s surf, s.isValid = false → (env.thePropagator2 s surf).isValid = false)
    (hcall : Call.update s hit ∈ smoothCalls env t)
    (hinv : (env.theUpdator s hit).isValid = false) :
    smooth env t = [] ∨
    ∃ r tm front, smooth env t = [r] ∧ r.measurements.getLast? = some tm ∧
      t.measurements.head? = some front ∧ hit = front.recHit ∧ tm.recHit = hit ∧
      tm.backwardPredictedState = s ∧ tm.updatedState = env.theUpdator s hit := by
  by_cases hlen : t.measurements.length < 2
  · exact absurd ((smoothRun_short env t hlen).2 _ hcall) (by simp)
  · obtain ⟨f, mid, l, hsplit⟩ := two_le_length_split t.measurements (by omega)
    rcases hv : (env.rescaleError l.forwardPredictedState theErrorRescaling).isValid
    · simp [smoothCalls, smoothRun_of_invalid_rescaled env t f l mid hsplit hv] at hcall
    rcases hw : (smoothLoop env mid.reverse
        (smoothLast env l (env.rescaleError l.forwardPredictedState theErrorRescaling)
          (Trajectory.new t.seed env.thePropagator2Direction)).1.1
        (smoothLast env l (env.rescaleError l.forwardPredictedState theErrorRescaling)
          (Trajectory.new t.seed env.thePropagator2Direction)).1.2).1 with _ | ⟨c, tr⟩
    · left
      simp [smooth, smoothRun_of_walk_none env t f l mid hsplit _ rfl hv _ rfl _ rfl hw]
    · have hrun := smoothRun_of_walk_some env t f l mid hsplit _ rfl hv _ rfl _ rfl c tr hw
      rw [smoothCalls, hrun] at hcall
      replace hcall := List.mem_of_ne_of_mem (by simp) hcall
      rw [smooth, hrun]
      rcases hfirst : (smoothFirst env f c tr).1 with _ | ⟨r, rs⟩
      · left; rfl
      · have hone : rs = [] := by
          have := smoothFirst_length_le env f c tr
          rw [hfirst] at this
          cases rs with
          | nil => rfl
          | cons _ _ => simp at this
        subst hone
        right
        have hcvalid : c.isValid = true := by
          have hp := smoothFirst_some_valid env f c tr r hfirst
          rcases hcv : c.isValid
          · simp [hprop c _ hcv] at hp
          · rfl
        obtain ⟨hcurr, hupd⟩ := smoothLoop_updates_valid env hprop _ _ _ _ _ hw hcvalid
        simp only [List.mem_append] at hcall
        rcases hcall with (hcall | hcall) | hcall
        · rw [smoothLast_update_call env _ _ _ s hit hcall, hinv] at hcurr
          exact absurd hcurr (by simp)
        · rw [hupd s hit hcall] at hinv
          exact absurd hinv (by simp)
        · obtain ⟨hhit, hres⟩ := smoothFirst_update_call env f c tr s hit hcall
          rw [hfirst] at hres
          simp only [List.cons.injEq, and_true] at hres
          refine ⟨r, TM.ofStates f.forwardPredictedState s (env.theUpdator s hit) hit
            (env.theEstimator s hit).2 f.layer, f, rfl, ?_, by rw [hsplit]; rfl, hhit,
            rfl, rfl, rfl⟩
          rw [hres]
          simp [Trajectory.push, Trajectory.measurements]

theorem smoothRun_nil_or_singleton (env : Env) (t : Trajectory) :
    (smoothRun env t).1 = [] ∨ ∃ r, (smoothRun env t).1 = [r] := by
  have hlen := smoothRun_length_le env t
  cases hs : (smoothRun env t).1 with
  | nil => exact Or.inl rfl
  | cons a as =>
    rw [hs] at hlen
    cases as with
    | nil => exact Or.inr ⟨a, rfl⟩
    | cons _ _ => simp at hlen

theorem valid_of_propagated_valid (env : Env)
    (hprop : ∀ s surf, s.isValid = false → (env.thePropagator2 s surf).isValid = false)
    (c : TSOS) (surf : Surface) (h : (env.thePropagator2 c surf).isValid = true) :
    c.isValid = true := by
  rcases hcv : c.isValid
  · simp [hprop c surf hcv] at h
  · rfl

/-! ## The claims -/

/-- C1: with a hit sequence of length 0, `trajectories(seed, hits, state)` and
`fit(seed, hits, state)` return the empty list for every seed and every initial
state, and they call no collaborator at all (in particular neither the updator
nor a propagator). -/
theorem empty_hits_give_no_trajectory (env : Env) (seed : TrajectorySeed) (firstPredTsos : TSOS) :
    trajectories env seed [] firstPredTsos = [] ∧
    trajectoriesCalls env seed [] firstPredTsos = [] ∧
    fit env seed [] firstPredTsos = [] ∧
    fitCalls env seed [] firstPredTsos = [] :=
  ⟨rfl, rfl, rfl, rfl⟩

/-- C2: for a trajectory with fewer than 2 measurements `smooth` returns the
empty list (having at most asked the backward propagator for its direction), and
so does the smoothing of the one-element list holding it; hence a two-pass refit whose fit stage produced that trajectory,
from a seed and hits or from a trajectory, is empty as well. -/
theorem smooth_of_short_trajectory (env : Env) (t : Trajectory)
    (h : t.measurements.length < 2) :
    smooth env t = [] ∧ (∀ c ∈ smoothCalls env t, c = Call.directionOpposite) ∧
    smoothAll env [t] = [] ∧
    (∀ seed hits firstPredTsos,
      fit env seed hits (env.arbitraryError firstPredTsos) = [t] →
      trajectories env seed hits firstPredTsos = []) ∧
    (∀ t0, fitTrajectory env t0 = [t] → trajectoriesOf env t0 = []) := by
  have hs := (smoothRun_short env t h).1
  refine ⟨hs, (smoothRun_short env t h).2,
    by simp [smoothAll, smoothAllRun_singleton, hs], ?_, ?_⟩
  · intro seed hits st hfit
    unfold fit at hfit
    unfold trajectories trajectoriesRun
    split
    · rfl
    · simp only [hfit, smoothAllRun_singleton, hs]
  · intro t0 hfit
    unfold fitTrajectory at hfit
    unfold trajectoriesOf trajectoriesOfRun
    split
    · rfl
    · simp only [hfit, smoothAllRun_singleton, hs]

/-- Witness of C2: the sample fit of the single hit `hit1` succeeds with a
one-measurement trajectory, whose smoothing and whose two-pass refit are empty. -/
theorem smooth_of_short_trajectory_witness :
    fit sampleEnv sampleSeed [hit1] sampleState = [sampleTrajectory [sampleTM 1 hit1]] ∧
    smooth sampleEnv (sampleTrajectory [sampleTM 1 hit1]) = [] ∧
    trajectories sampleEnv sampleSeed [hit1] sampleState = [] :=
  ⟨by decide,
    (smooth_of_short_trajectory sampleEnv (sampleTrajectory [sampleTM 1 hit1]) (by decide)).1,
    (smooth_of_short_trajectory sampleEnv (sampleTrajectory [sampleTM 1 hit1])
      (by decide)).2.2.2.1 sampleSeed [hit1] sampleState (by decide)⟩

/-- C3: both refit entry points return a list of length 0 or 1: `fit` (either
overload) returns at most one trajectory, `smooth` of one trajectory returns at
most one, and `smooth` of a list of at most one trajectory returns at most one. -/
theorem refit_returns_at_most_one (env : Env) (t : Trajectory) (seed : TrajectorySeed)
    (hits : List RecHit) (firstPredTsos : TSOS) (tc : List Trajectory) :
    (trajectoriesOf env t).length ≤ 1 ∧
    (trajectories env seed hits firstPredTsos).length ≤ 1 ∧
    (fit env seed hits firstPredTsos).length ≤ 1 ∧
    (fitTrajectory env t).length ≤ 1 ∧
    (smooth env t).length ≤ 1 ∧
    (tc.length ≤ 1 → (smoothAll env tc).length ≤ 1) := by
  refine ⟨?_, ?_, fitRun_length_le env seed hits firstPredTsos,
    fitTrajectoryRun_length_le env t, smoothRun_length_le env t,
    smoothAllRun_length_le env tc⟩
  · unfold trajectoriesOf trajectoriesOfRun
    split
    · simp
    · exact smoothAllRun_length_le env _ (fitTrajectoryRun_length_le env t)
  · unfold trajectories trajectoriesRun
    split
    · simp
    · exact smoothAllRun_length_le env _ (fitRun_length_le env _ _ _)

/-- C5: an invalid trajectory makes `trajectories(t)` return the empty list, and
an empty trajectory (one without measurement) makes `fit(t)` and `smooth(t)`
return the empty list; in each case no updator, propagator, estimator or
combiner is called. -/
theorem invalid_or_empty_trajectory_short_circuits (env : Env) (t : Trajectory) :
    (t.isValid = false → trajectoriesOf env t = [] ∧ trajectoriesOfCalls env t = []) ∧
    (t.empty = true →
      fitTrajectory env t = [] ∧ fitTrajectoryCalls env t = [] ∧
      smooth env t = [] ∧ smoothCalls env t = []) := by
  constructor
  · intro h
    simp [trajectoriesOf, trajectoriesOfCalls, trajectoriesOfRun, h]
  · intro h
    simp [fitTrajectory, fitTrajectoryCalls, fitTrajectoryRun, smooth, smoothCalls, smoothRun, h]

/-- Witness of C5: an invalid sample trajectory that holds two measurements, and
the empty sample trajectory. -/
theorem invalid_or_empty_trajectory_short_circuits_witness :
    trajectoriesOfCalls sampleEnv
      ⟨sampleSeed, PropagationDirection.alongMomentum, [sampleTM 1 hit1, sampleTM 2 hit2], false⟩
      = [] ∧
    smooth sampleEnv (sampleTrajectory []) = [] :=
  ⟨((invalid_or_empty_trajectory_short_circuits sampleEnv
      ⟨sampleSeed, PropagationDirection.alongMomentum, [sampleTM 1 hit1, sampleTM 2 hit2], false⟩).1
      (by decide)).2,
    ((invalid_or_empty_trajectory_short_circuits sampleEnv (sampleTrajectory [])).2
      (by decide)).2.2.1⟩

/-- C6: `fit(seed, hits, state)` returns the empty list if the initial state is
invalid, and if the trajectory the forward loop has built is invalid at the end;
hence a trajectory that `fit` returns is valid, is the one the loop built, and
was built from a valid initial state (and from a non-empty hit sequence). -/
theorem fit_aborts_on_invalid_state_or_trajectory (env : Env) (seed : TrajectorySeed)
    (hits : List RecHit) (firstPredTsos : TSOS) :
    (firstPredTsos.isValid = false → fit env seed hits firstPredTsos = []) ∧
    ((fitLoop env hits firstPredTsos
        (Trajectory.new seed env.thePropagator1Direction)).1.2.isValid = false →
      fit env seed hits firstPredTsos = []) ∧
    (∀ t ∈ fit env seed hits firstPredTsos,
      t.isValid = true ∧ firstPredTsos.isValid = true ∧ hits ≠ [] ∧
      t = (fitLoop env hits firstPredTsos
        (Trajectory.new seed env.thePropagator1Direction)).1.2) := by
  refine ⟨?_, ?_, ?_⟩
  · intro h
    simp only [fit, fitRun]
    split
    · rfl
    · simp [h]
  · intro h
    simp only [fit, fitRun]
    split
    · rfl
    · split
      · rfl
      · simp [h]
  · intro t ht
    simp only [fit, fitRun] at ht
    split at ht
    · simp at ht
    · rw [called_fst] at ht
      split at ht
      · simp at ht
      · split at ht
        · simp at ht
        · rename_i h1 h2 h3
          simp only [List.mem_singleton] at ht
          subst ht
          refine ⟨by simpa using h3, by simpa using h2, ?_, rfl⟩
          intro hnil
          simp [hnil] at h1

/-- Witness of C6: a sample fit started from an invalid state, a sample fit whose
trajectory updator leaves an invalid trajectory, and a sample fit that succeeds. -/
theorem fit_aborts_on_invalid_state_or_trajectory_witness :
    fit sampleEnv sampleSeed [hit1, hit2] TSOS.unset = [] ∧
    fit refusingEnv sampleSeed [hit1] sampleState = [] ∧
    (sampleTrajectory [sampleTM 1 hit1, sampleTM 2 hit2]).isValid = true :=
  ⟨(fit_aborts_on_invalid_state_or_trajectory sampleEnv sampleSeed [hit1, hit2] TSOS.unset).1
      (by decide),
    (fit_aborts_on_invalid_state_or_trajectory refusingEnv sampleSeed [hit1] sampleState).2.1
      (by decide),
    ((fit_aborts_on_invalid_state_or_trajectory sampleEnv sampleSeed [hit1, hit2]
      sampleState).2.2 (sampleTrajectory [sampleTM 1 hit1, sampleTM 2 hit2]) (by decide)).1⟩

/-- C4: in `smooth` of a trajectory with at least 2 measurements, every backward
propagation targets the surface of a measurement other than the last one (the
interior ones walked in reverse, then the first), and if any of these
propagations, the second one included, returns an invalid state, `smooth`
returns the empty list and no trajectory with part of the measurements. -/
theorem smooth_aborts_on_invalid_propagation (env : Env) (t : Trajectory) (s : TSOS)
    (surf : Surface) (hcall : Call.propagateOpposite s surf ∈ smoothCalls env t)
    (hinv : (env.thePropagator2 s surf).isValid = false) :
    smooth env t = [] ∧ 2 ≤ t.measurements.length ∧
    ∃ m ∈ t.measurements.dropLast, m.recHit.surface = surf := by
  by_cases hlen : t.measurements.length < 2
  · exact absurd ((smoothRun_short env t hlen).2 _ hcall) (by simp)
  · obtain ⟨f, mid, l, hsplit⟩ := two_le_length_split t.measurements (by omega)
    have hdrop : t.measurements.dropLast = f :: mid := by
      rw [hsplit, ← List.cons_append, List.dropLast_concat]
    rw [hdrop]
    refine ⟨?_, by omega, ?_⟩
    all_goals
      rcases hv : (env.rescaleError l.forwardPredictedState theErrorRescaling).isValid
      · simp [smoothCalls, smoothRun_of_invalid_rescaled env t f l mid hsplit hv] at hcall
      rcases hw : (smoothLoop env mid.reverse
          (smoothLast env l (env.rescaleError l.forwardPredictedState theErrorRescaling)
            (Trajectory.new t.seed env.thePropagator2Direction)).1.1
          (smoothLast env l (env.rescaleError l.forwardPredictedState theErrorRescaling)
            (Trajectory.new t.seed env.thePropagator2Direction)).1.2).1 with _ | ⟨c, tr⟩
    · simp [smooth, smoothRun_of_walk_none env t f l mid hsplit _ rfl hv _ rfl _ rfl hw]
    · rw [smoothCalls, smoothRun_of_walk_some env t f l mid hsplit _ rfl hv _ rfl _ rfl c tr hw]
        at hcall
      replace hcall := List.mem_of_ne_of_mem (by simp) hcall
      rw [smooth, smoothRun_of_walk_some env t f l mid hsplit _ rfl hv _ rfl _ rfl c tr hw]
      simp only [List.mem_append] at hcall
      rcases hcall with (hcall | hcall) | hcall
      · exact absurd hcall (smoothLast_no_propagate_call env _ _ _ _ _)
      · have := smoothLoop_invalid_propagation env _ _ _ s surf hcall hinv
        simp [hw] at this
      · obtain ⟨rfl, rfl⟩ := smoothFirst_propagate_call env f c tr s surf hcall
        exact smoothFirst_invalid_propagation env f s tr hinv
    · rw [smoothCalls, smoothRun_of_walk_none env t f l mid hsplit _ rfl hv _ rfl _ rfl hw]
        at hcall
      replace hcall := List.mem_of_ne_of_mem (by simp) hcall
      simp only [List.mem_append] at hcall
      rcases hcall with hcall | hcall
      · exact absurd hcall (smoothLast_no_propagate_call env _ _ _ _ _)
      · obtain ⟨m, hm, hs⟩ := smoothLoop_propagate_surface env _ _ _ s surf hcall
        exact ⟨m, by simp [List.mem_reverse.mp hm], hs⟩
    · rw [smoothCalls, smoothRun_of_walk_some env t f l mid hsplit _ rfl hv _ rfl _ rfl c tr hw]
        at hcall
      replace hcall := List.mem_of_ne_of_mem (by simp) hcall
      simp only [List.mem_append] at hcall
      rcases hcall with (hcall | hcall) | hcall
      · exact absurd hcall (smoothLast_no_propagate_call env _ _ _ _ _)
      · obtain ⟨m, hm, hs⟩ := smoothLoop_propagate_surface env _ _ _ s surf hcall
        exact ⟨m, by simp [List.mem_reverse.mp hm], hs⟩
      · exact ⟨f, by simp, (smoothFirst_propagate_call env f c tr s surf hcall).2.symm⟩

/-- Witness of C4: on the sample trajectory over `hitFar`, `hit2`, `hit1` the second
backward propagation, to the surface of the first measurement, is invalid, and
`smooth` returns the empty list. -/
theorem smooth_aborts_on_invalid_propagation_witness :
    Call.propagateOpposite ⟨true, 705⟩ 9 ∈
      smoothCalls sampleEnv (sampleTrajectory [sampleTM 1 hitFar, sampleTM 5 hit2, sampleTM 7 hit1]) ∧
    (sampleEnv.thePropagator2 ⟨true, 705⟩ 9).isValid = false ∧
    smooth sampleEnv (sampleTrajectory [sampleTM 1 hitFar, sampleTM 5 hit2, sampleTM 7 hit1]) = [] :=
  ⟨by decide, by decide,
    (smooth_aborts_on_invalid_propagation sampleEnv
      (sampleTrajectory [sampleTM 1 hitFar, sampleTM 5 hit2, sampleTM 7 hit1]) ⟨true, 705⟩ 9
      (by decide) (by decide)).1⟩

/-- Counterexample to C7: the sample fit over a valid hit and an invalid one
starts from a valid state and returns a trajectory; the step of the second hit
fails, the fallback propagation to its surface is done, and the returned
trajectory holds one measurement for the two hits. -/
theorem fit_one_measurement_per_hit_counterexample :
    sampleState.isValid = true ∧
    fit sampleEnv sampleSeed [hit1, hitLost] sampleState = [sampleTrajectory [sampleTM 1 hit1]] ∧
    Call.propagateAlong ⟨true, 2⟩ hitLost.surface ∈
      fitCalls sampleEnv sampleSeed [hit1, hitLost] sampleState ∧
    (sampleTrajectory [sampleTM 1 hit1]).measurements.length = 1 ∧
    (sampleTrajectory [sampleTM 1 hit1]).recHits ≠ [hit1, hitLost] := by
  decide

/-- C7, amended: from a non-empty hit sequence and a valid initial state, `fit`
hands the trajectory updator exactly one measurement per input hit, the i-th
referring to the i-th input hit; `fit` pushes no measurement itself, so when
every call of the trajectory updator appends one measurement referring to the
hit it was handed (also when it reports failure), a trajectory that `fit`
returns holds exactly one measurement per input hit, in input order. -/
theorem fit_one_measurement_per_handed_hit (env : Env) (seed : TrajectorySeed)
    (hits : List RecHit) (firstPredTsos : TSOS) (hne : hits ≠ [])
    (hvalid : firstPredTsos.isValid = true) :
    (fitCalls env seed hits firstPredTsos).filterMap Call.handedHit = hits ∧
    ((∀ meas traj,
        (env.theTrajectoryUpdator meas traj).traj.recHits = traj.recHits ++ [meas.recHit]) →
      ∀ t ∈ fit env seed hits firstPredTsos, t.recHits = hits) := by
  have hrun := fitRun_of_valid env seed hits firstPredTsos hne hvalid
  constructor
  · rw [fitCalls, hrun]
    split <;> exact fitLoop_handed_hits env hits _ _
  · intro hpush t ht
    rw [fit, hrun, called_fst] at ht
    split at ht
    · simp at ht
    · simp only [List.mem_singleton] at ht
      subst ht
      rw [fitLoop_recHits env hpush]
      simp [Trajectory.new, Trajectory.recHits]

/-- Witness of C7, amended: with the sample trajectory updator that pushes the
handed measurement at every call, the fit over a valid and an invalid hit
returns a trajectory with the two hits in order. -/
theorem fit_one_measurement_per_handed_hit_witness :
    (fitCalls pushingEnv sampleSeed [hit1, hitLost] sampleState).filterMap Call.handedHit
      = [hit1, hitLost] ∧
    (fit pushingEnv sampleSeed [hit1, hitLost] sampleState).map Trajectory.recHits
      = [[hit1, hitLost]] := by
  have h := fit_one_measurement_per_handed_hit pushingEnv sampleSeed [hit1, hitLost] sampleState
    (by decide) (by decide)
  exact ⟨h.1, by decide⟩

/-- Counterexample to C8: `smooth` succeeds on the sample trajectory over `hit1`,
`hit2`, and the first measurement of the smoothed trajectory refers to `hit2`,
the second to `hit1`. -/
theorem smooth_keeps_hit_order_counterexample :
    (sampleTrajectory [sampleTM 1 hit1, sampleTM 2 hit2]).recHits = [hit1, hit2] ∧
    (smooth sampleEnv (sampleTrajectory [sampleTM 1 hit1, sampleTM 2 hit2])).map
      Trajectory.recHits = [[hit2, hit1]] ∧
    [hit2, hit1] ≠ [hit1, hit2] := by
  decide

/-- C8, amended: when `smooth` succeeds, the hits referenced by the measurements
of the smoothed trajectory are the hits of the input trajectory's measurements
in the opposite order: the k-th output measurement refers to the hit of the
k-th input measurement counted from the end. -/
theorem smooth_reverses_hit_order (env : Env) (t r : Trajectory)
    (h : smooth env t = [r]) :
    r.recHits = t.recHits.reverse ∧
    r.measurements.length = t.measurements.length ∧
    ∀ k, k < t.recHits.length → r.recHits[k]? = t.recHits[t.recHits.length - 1 - k]? := by
  obtain ⟨tms, hr, hmap⟩ := smoothRun_pushes env t r h
  have hrev : r.recHits = t.recHits.reverse := by
    rw [hr]
    simpa [Trajectory.recHits, Trajectory.measurements] using hmap
  refine ⟨hrev, ?_, ?_⟩
  · have := congrArg List.length hrev
    simpa [Trajectory.recHits, Trajectory.measurements] using this
  · intro k hk
    rw [hrev, List.getElem?_reverse hk]

/-- Witness of C8, amended: the sample trajectory over `hit1`, `hit2`. -/
theorem smooth_reverses_hit_order_witness :
    ∃ r, smooth sampleEnv (sampleTrajectory [sampleTM 1 hit1, sampleTM 2 hit2]) = [r] ∧
      r.recHits = [hit2, hit1] := by
  refine ⟨(smooth sampleEnv (sampleTrajectory [sampleTM 1 hit1, sampleTM 2 hit2])).head
    (by decide), by decide, ?_⟩
  exact (smooth_reverses_hit_order sampleEnv
    (sampleTrajectory [sampleTM 1 hit1, sampleTM 2 hit2]) _ (by decide)).1

/-- Counterexample to C9: on the sample trajectory over `hitBad`, `hit1` the
Kalman updator is called on the first measurement and returns an invalid state,
and `smooth` returns a trajectory whose last measurement stores that invalid
state as its updated state.  With a backward propagator that hands back a valid
state for an invalid one, the same happens for an invalid result on the last
measurement. -/
theorem smooth_aborts_on_invalid_update_counterexample :
    (Call.update ⟨true, 806⟩ hitBad ∈
        smoothCalls sampleEnv (sampleTrajectory [sampleTM 1 hitBad, sampleTM 8 hit1]) ∧
      (sampleEnv.theUpdator ⟨true, 806⟩ hitBad).isValid = false ∧
      (smooth sampleEnv (sampleTrajectory [sampleTM 1 hitBad, sampleTM 8 hit1])).map
        (fun r => r.measurements.map (fun m => m.updatedState.isValid)) = [[true, false]]) ∧
    (Call.update ⟨true, 800⟩ hitBad ∈
        smoothCalls repairingEnv (sampleTrajectory [sampleTM 1 hit1, sampleTM 8 hitBad]) ∧
      (repairingEnv.theUpdator ⟨true, 800⟩ hitBad).isValid = false ∧
      (smooth repairingEnv (sampleTrajectory [sampleTM 1 hit1, sampleTM 8 hitBad])).length = 1) := by
  decide

/-- C9, amended: `smooth` does not test the states the Kalman updator returns.
For a trajectory with first measurement `f` and last measurement `l`, and a
backward propagator that hands back an invalid state whenever it is given an
invalid one: if the updator returns an invalid state on the last measurement
(valid hit), `smooth` returns the empty list; if it returns an invalid state on
an interior measurement `m` with a valid hit, reached by the walk with current
state `c`, `smooth` returns the empty list; on the first measurement (valid
hit, reached with current state `c` and a valid backward propagation `p`) the
result of the updator, valid or not, does not abort `smooth`: it is stored as
the updated state of the last measurement of the returned trajectory.  Hence a
call of the updator recorded during `smooth` with an invalid result either
comes with the empty list or is the call on the first measurement. -/
theorem smooth_invalid_update (env : Env) (t : Trajectory) (f l : TM)
    (hprop : ∀ s surf, s.isValid = false → (env.thePropagator2 s surf).isValid = false)
    (hfirst : t.measurements.head? = some f) (hlast : t.measurements.getLast? = some l) :
    (l.recHit.isValid = true →
      (env.theUpdator (smoothRescaled env l) l.recHit).isValid = false →
      smooth env t = []) ∧
    (∀ pre m post c tr, interior t.measurements = pre ++ m :: post →
      smoothAfter env t l pre = some (c, tr) → m.recHit.isValid = true →
      (env.theUpdator (env.thePropagator2 c m.recHit.surface) m.recHit).isValid = false →
      smooth env t = []) ∧
    (∀ c tr, 2 ≤ t.measurements.length → (smoothRescaled env l).isValid = true →
      smoothAfter env t l (interior t.measurements) = some (c, tr) →
      (env.thePropagator2 c f.recHit.surface).isValid = true → f.recHit.isValid = true →
      ∃ r, smooth env t = [r] ∧
        r.measurements.getLast? =
          some (TM.ofStates f.forwardPredictedState (env.thePropagator2 c f.recHit.surface)
            (env.theUpdator (env.thePropagator2 c f.recHit.surface) f.recHit) f.recHit
            (env.theEstimator (env.thePropagator2 c f.recHit.surface) f.recHit).2 f.layer) ∧
        Call.update (env.thePropagator2 c f.recHit.surface) f.recHit ∈ smoothCalls env t) ∧
    (∀ s hit, Call.update s hit ∈ smoothCalls env t → (env.theUpdator s hit).isValid = false →
      smooth env t = [] ∨
      ∃ r tm front, smooth env t = [r] ∧ r.measurements.getLast? = some tm ∧
        t.measurements.head? = some front ∧ hit = front.recHit ∧ tm.recHit = hit ∧
        tm.backwardPredictedState = s ∧ tm.updatedState = env.theUpdator s hit) := by
  refine ⟨?_, ?_, ?_, fun s hit hcall hinv =>
    smoothRun_invalid_update_call env t s hit hprop hcall hinv⟩
  · intro hhit hinv
    rcases smoothRun_nil_or_singleton env t with hnil | ⟨r, hr⟩
    · exact hnil
    · exfalso
      obtain ⟨_, _, c, tr, hw, hF⟩ := smoothRun_success env t r f l hfirst hlast hr
      have hc := valid_of_propagated_valid env hprop c _ (smoothFirst_some_valid env f c tr r hF)
      obtain ⟨hentry, _⟩ := smoothLoop_updates_valid env hprop _ _ c _ tr hw hc
      have hres := smoothLast_result env l (smoothRescaled env l)
        (Trajectory.new t.seed env.thePropagator2Direction)
      rw [smoothEntry, hres] at hentry
      simp only [hhit, if_true] at hentry
      rw [hinv] at hentry
      exact absurd hentry (by simp)
  · intro pre m post c tr hwalk hpre hhit hinv
    rcases smoothRun_nil_or_singleton env t with hnil | ⟨r, hr⟩
    · exact hnil
    · exfalso
      obtain ⟨_, _, cF, trF, hwF, hF⟩ := smoothRun_success env t r f l hfirst hlast hr
      have hcF := valid_of_propagated_valid env hprop cF _
        (smoothFirst_some_valid env f cF trF r hF)
      have hshape : pre ++ m :: post = (pre ++ [m]) ++ post := by simp
      rw [hwalk, hshape] at hwF
      obtain ⟨c1, tr1, hvisited, hpost, _⟩ :=
        smoothLoop_append_some env (pre ++ [m]) post _ cF _ trF hwF
      obtain ⟨hc1, _⟩ := smoothLoop_updates_valid env hprop post c1 cF tr1 trF hpost hcF
      obtain ⟨c0, tr0, hpre0, hone, _⟩ := smoothLoop_append_some env pre [m] _ c1 _ tr1 hvisited
      have hsame : some (c0, tr0) = some (c, tr) := by
        rw [← hpre0]
        exact hpre
      simp only [Option.some.injEq, Prod.mk.injEq] at hsame
      obtain ⟨rfl, rfl⟩ := hsame
      rw [smoothLoop_singleton] at hone
      obtain ⟨_, hc1eq, _⟩ := smoothStep_some env m c0 c1 tr0 tr1 hone
      simp only [hhit, if_true] at hc1eq
      rw [hc1eq, hinv] at hc1
      exact absurd hc1 (by simp)
  · intro c tr hlen hv hw hp hhit
    have hrun := smoothRun_after_some env t f l hlen hfirst hlast hv c tr hw
    have hres := smoothFirst_result env f c tr
    refine ⟨{ tr with theData := tr.theData ++
      [TM.ofStates f.forwardPredictedState (env.thePropagator2 c f.recHit.surface)
        (env.theUpdator (env.thePropagator2 c f.recHit.surface) f.recHit) f.recHit
        (env.theEstimator (env.thePropagator2 c f.recHit.surface) f.recHit).2 f.layer] },
      ?_, ?_, ?_⟩
    · rw [smooth, hrun, hres]
      simp only [hp, hhit, Bool.not_true, Bool.false_eq_true, if_false, if_true]
    · simp [Trajectory.measurements]
    · rw [smoothCalls, hrun, hres]
      simp [hp, hhit]

/-- Witness of C9, amended: on the sample trajectory over `hitBad`, `hit1` the
walk is empty, the first measurement is reached with the current state 801, and
the invalid result of the updator on it is stored in the returned trajectory. -/
theorem smooth_invalid_update_witness :
    (sampleEnv.theUpdator (sampleEnv.thePropagator2 ⟨true, 801⟩ hitBad.surface) hitBad).isValid
      = false ∧
    ∃ r, smooth sampleEnv (sampleTrajectory [sampleTM 1 hitBad, sampleTM 8 hit1]) = [r] ∧
      r.measurements.getLast? =
        some (TM.ofStates (sampleTM 1 hitBad).forwardPredictedState
          (sampleEnv.thePropagator2 ⟨true, 801⟩ (sampleTM 1 hitBad).recHit.surface)
          (sampleEnv.theUpdator
            (sampleEnv.thePropagator2 ⟨true, 801⟩ (sampleTM 1 hitBad).recHit.surface)
            (sampleTM 1 hitBad).recHit)
          (sampleTM 1 hitBad).recHit
          (sampleEnv.theEstimator
            (sampleEnv.thePropagator2 ⟨true, 801⟩ (sampleTM 1 hitBad).recHit.surface)
            (sampleTM 1 hitBad).recHit).2
          (sampleTM 1 hitBad).layer) ∧
      Call.update (sampleEnv.thePropagator2 ⟨true, 801⟩ (sampleTM 1 hitBad).recHit.surface)
        (sampleTM 1 hitBad).recHit ∈
        smoothCalls sampleEnv (sampleTrajectory [sampleTM 1 hitBad, sampleTM 8 hit1]) :=
  ⟨by decide,
    (smooth_invalid_update sampleEnv (sampleTrajectory [sampleTM 1 hitBad, sampleTM 8 hit1])
      (sampleTM 1 hitBad) (sampleTM 8 hit1)
      (by intro s surf h; simp [sampleEnv, TSOS.isValid] at h ⊢; simp [h])
      (by decide) (by decide)).2.2.1 ⟨true, 801⟩
      (smoothEntry sampleEnv (sampleTrajectory [sampleTM 1 hitBad, sampleTM 8 hit1])
        (sampleTM 8 hit1)).2
      (by decide) (by decide) (by decide) (by decide) (by decide)⟩

/-- C10: on a trajectory with exactly 2 measurements `smooth` never enters the
reverse walk: the walk visits no measurement, the state combiner is never
applied (no call of it is made, and the run is the same with any other
combiner), the run is the last-measurement step followed by the
first-measurement step, and on success the output holds exactly the measurement
pushed by the former followed by the one pushed by the latter. -/
theorem smooth_two_measurements (env : Env) (t : Trajectory) (f l : TM)
    (h : t.measurements = [f, l]) :
    interior t.measurements = [] ∧
    (∀ a b, Call.combine a b ∉ smoothCalls env t) ∧
    (∀ combiner, smoothRun { env with combiner := combiner } t = smoothRun env t) ∧
    smoothRun env t =
      called Call.directionOpposite
        (if !(env.rescaleError l.forwardPredictedState theErrorRescaling).isValid then ([], [])
        else
          ((smoothFirst env f
              (smoothLast env l (env.rescaleError l.forwardPredictedState theErrorRescaling)
                (Trajectory.new t.seed env.thePropagator2Direction)).1.1
              (smoothLast env l (env.rescaleError l.forwardPredictedState theErrorRescaling)
                (Trajectory.new t.seed env.thePropagator2Direction)).1.2).1,
            (smoothLast env l (env.rescaleError l.forwardPredictedState theErrorRescaling)
                (Trajectory.new t.seed env.thePropagator2Direction)).2 ++
            (smoothFirst env f
              (smoothLast env l (env.rescaleError l.forwardPredictedState theErrorRescaling)
                (Trajectory.new t.seed env.thePropagator2Direction)).1.1
              (smoothLast env l (env.rescaleError l.forwardPredictedState theErrorRescaling)
                (Trajectory.new t.seed env.thePropagator2Direction)).1.2).2)) ∧
    (∀ r, smooth env t = [r] →
      ∃ tmLast tmFirst,
        (smoothLast env l (env.rescaleError l.forwardPredictedState theErrorRescaling)
          (Trajectory.new t.seed env.thePropagator2Direction)).1.2.measurements = [tmLast] ∧
        r.measurements = [tmLast, tmFirst] ∧
        tmLast.recHit = l.recHit ∧ tmFirst.recHit = f.recHit) := by
  have hsplit : t.theData = f :: ([] ++ [l]) := h
  have hrun : ∀ e : Env, smoothRun e t =
      called Call.directionOpposite
        (if !(e.rescaleError l.forwardPredictedState theErrorRescaling).isValid then ([], [])
        else
          ((smoothFirst e f
              (smoothLast e l (e.rescaleError l.forwardPredictedState theErrorRescaling)
                (Trajectory.new t.seed e.thePropagator2Direction)).1.1
              (smoothLast e l (e.rescaleError l.forwardPredictedState theErrorRescaling)
                (Trajectory.new t.seed e.thePropagator2Direction)).1.2).1,
            (smoothLast e l (e.rescaleError l.forwardPredictedState theErrorRescaling)
                (Trajectory.new t.seed e.thePropagator2Direction)).2 ++
            (smoothFirst e f
              (smoothLast e l (e.rescaleError l.forwardPredictedState theErrorRescaling)
                (Trajectory.new t.seed e.thePropagator2Direction)).1.1
              (smoothLast e l (e.rescaleError l.forwardPredictedState theErrorRescaling)
                (Trajectory.new t.seed e.thePropagator2Direction)).1.2).2)) := by
    intro e
    rw [smoothRun_split e t f l [] hsplit]
    simp [smoothLoop_nil]
  refine ⟨by rw [h]; rfl, ?_, ?_, hrun env, ?_⟩
  · intro a b hmem
    rw [smoothCalls, hrun env, called_snd] at hmem
    replace hmem := List.mem_of_ne_of_mem (by simp) hmem
    split at hmem
    · simp at hmem
    · simp only [smoothLast, smoothFirst] at hmem
      split_ifs at hmem <;> simp [called] at hmem
  · intro combiner
    rw [hrun env, hrun]
    rfl
  · intro r hr
    rw [smooth, hrun env, called_fst] at hr
    split at hr
    · simp at hr
    · obtain ⟨tmF, hrF, hF⟩ := smoothFirst_pushes env f _ _ r hr
      obtain ⟨tmL, hlast, hL⟩ := smoothLast_pushes env l
        (env.rescaleError l.forwardPredictedState theErrorRescaling)
        (Trajectory.new t.seed env.thePropagator2Direction)
      refine ⟨tmL, tmF, ?_, ?_, hL, hF⟩
      · rw [hlast]; rfl
      · rw [hrF, hlast]; rfl

/-- Witness of C10: the sample trajectory over `hit1`, `hit2` is smoothed
without a call of the combiner. -/
theorem smooth_two_measurements_witness :
    (smooth sampleEnv (sampleTrajectory [sampleTM 1 hit1, sampleTM 2 hit2])).length = 1 ∧
    ∀ a b, Call.combine a b ∉
      smoothCalls sampleEnv (sampleTrajectory [sampleTM 1 hit1, sampleTM 2 hit2]) :=
  ⟨by decide,
    (smooth_two_measurements sampleEnv (sampleTrajectory [sampleTM 1 hit1, sampleTM 2 hit2])
      (sampleTM 1 hit1) (sampleTM 2 hit2) rfl).2.1⟩

/-- C11: for a valid trajectory `t` (its hit list is empty exactly when it has no
measurement) with first measurement `firstTM`, the two refit entry points agree,
in result and in the calls made: `trajectories(t)` equals
`trajectories(t.seed(), t.recHits(), firstTM.updatedState())`, both being
`smooth` applied to `fit(t.seed(), t.recHits(), that state with arbitrary error)`. -/
theorem refit_entry_points_agree (env : Env) (t : Trajectory) (firstTM : TM)
    (hvalid : t.isValid = true) (hfirst : t.measurements.head? = some firstTM) :
    (t.recHits = [] ↔ t.measurements = []) ∧
    trajectoriesOfRun env t = trajectoriesRun env t.seed t.recHits firstTM.updatedState ∧
    trajectoriesOf env t =
      smoothAll env (fit env t.seed t.recHits (env.arbitraryError firstTM.updatedState)) ∧
    trajectories env t.seed t.recHits firstTM.updatedState =
      smoothAll env (fit env t.seed t.recHits (env.arbitraryError firstTM.updatedState)) := by
  have hne : t.theData ≠ [] := by
    intro h
    simp [Trajectory.measurements, h] at hfirst
  have hempty : t.empty = false := by
    simp [Trajectory.empty, hne]
  have hhits : t.recHits.isEmpty = false := by
    simp [Trajectory.recHits, hne]
  have hfit : fitTrajectoryRun env t =
      fitRun env t.seed t.recHits (env.arbitraryError firstTM.updatedState) := by
    simp only [fitTrajectoryRun, hempty, hfirst]
    simp
  have hof : trajectoriesOfRun env t =
      ((smoothAllRun env
          (fitRun env t.seed t.recHits (env.arbitraryError firstTM.updatedState)).1).1,
        (fitRun env t.seed t.recHits (env.arbitraryError firstTM.updatedState)).2 ++
        (smoothAllRun env
          (fitRun env t.seed t.recHits (env.arbitraryError firstTM.updatedState)).1).2) := by
    simp only [trajectoriesOfRun, hvalid, hfit]
    simp
  have hseed : trajectoriesRun env t.seed t.recHits firstTM.updatedState =
      ((smoothAllRun env
          (fitRun env t.seed t.recHits (env.arbitraryError firstTM.updatedState)).1).1,
        (fitRun env t.seed t.recHits (env.arbitraryError firstTM.updatedState)).2 ++
        (smoothAllRun env
          (fitRun env t.seed t.recHits (env.arbitraryError firstTM.updatedState)).1).2) := by
    simp only [trajectoriesRun, hhits]
    simp
  refine ⟨by simp [Trajectory.recHits, Trajectory.measurements], by rw [hof, hseed], ?_, ?_⟩
  · rw [trajectoriesOf, hof]; rfl
  · rw [trajectories, hseed]; rfl

/-- Witness of C11: the valid sample trajectory over `hit1`, `hit2`. -/
theorem refit_entry_points_agree_witness :
    trajectoriesOf sampleEnv (sampleTrajectory [sampleTM 1 hit1, sampleTM 2 hit2]) =
      trajectories sampleEnv sampleSeed [hit1, hit2] (sampleTM 1 hit1).updatedState ∧
    trajectoriesOf sampleEnv (sampleTrajectory [sampleTM 1 hit1, sampleTM 2 hit2]) ≠ [] :=
  ⟨congrArg Prod.fst
      (refit_entry_points_agree sampleEnv (sampleTrajectory [sampleTM 1 hit1, sampleTM 2 hit2])
        (sampleTM 1 hit1) (by decide) (by decide)).2.1,
    by decide⟩

/-- Counterexample to C12: the sample refit of the hit sequence `hit1`, `hit2`,
`hit1`, which is its own reversal, returns a trajectory, the same for the
reversed sequence; and from an invalid initial state the refits of `hit1`,
`hit2` and of its reversal `hit2`, `hit1` are both empty. -/
theorem reversed_hits_change_refit_counterexample :
    (trajectories sampleEnv sampleSeed [hit1, hit2, hit1].reverse sampleState =
        trajectories sampleEnv sampleSeed [hit1, hit2, hit1] sampleState ∧
      trajectories sampleEnv sampleSeed [hit1, hit2, hit1] sampleState ≠ []) ∧
    ([hit1, hit2].reverse ≠ [hit1, hit2] ∧
      trajectories sampleEnv sampleSeed [hit1, hit2].reverse TSOS.unset =
        trajectories sampleEnv sampleSeed [hit1, hit2] TSOS.unset) := by
  decide

/-- C12, amended: with a trajectory updator that appends one measurement for
each hit it is handed, and a hit sequence that differs from its reversal,
refitting the reversed sequence yields a result different from refitting the
original one exactly when at least one of the two refits returns a trajectory
(a returned trajectory references the hits of its input in the opposite order);
a hit sequence equal to its reversal gives the same refit twice. -/
theorem refit_of_reversed_hits (env : Env) (seed : TrajectorySeed) (hits : List RecHit)
    (firstPredTsos : TSOS)
    (hpush : ∀ meas traj,
      (env.theTrajectoryUpdator meas traj).traj.recHits = traj.recHits ++ [meas.recHit]) :
    (hits ≠ hits.reverse →
      (trajectories env seed hits.reverse firstPredTsos ≠ trajectories env seed hits firstPredTsos ↔
        (trajectories env seed hits firstPredTsos ≠ [] ∨
          trajectories env seed hits.reverse firstPredTsos ≠ []))) ∧
    (hits = hits.reverse →
      trajectories env seed hits.reverse firstPredTsos = trajectories env seed hits firstPredTsos) ∧
    (∀ r ∈ trajectories env seed hits firstPredTsos, r.recHits = hits.reverse) := by
  have horig : ∀ r ∈ trajectories env seed hits firstPredTsos, r.recHits = hits.reverse :=
    trajectoriesRun_recHits env hpush seed hits firstPredTsos
  have hrev : ∀ r ∈ trajectories env seed hits.reverse firstPredTsos, r.recHits = hits := by
    have := trajectoriesRun_recHits env hpush seed hits.reverse firstPredTsos
    rw [List.reverse_reverse] at this
    exact this
  refine ⟨?_, ?_, horig⟩
  · intro hne
    constructor
    · intro hdiff
      by_contra hboth
      simp only [not_or, not_not] at hboth
      exact hdiff (by rw [hboth.1, hboth.2])
    · intro hsome heq
      rcases hsome with hsome | hsome
      · obtain ⟨r, hr⟩ := List.exists_mem_of_ne_nil _ hsome
        have h1 := horig r hr
        have h2 := hrev r (by rw [heq]; exact hr)
        exact hne (h2.symm.trans h1)
      · obtain ⟨r, hr⟩ := List.exists_mem_of_ne_nil _ hsome
        have h2 := hrev r hr
        have h1 := horig r (by rw [← heq]; exact hr)
        exact hne (h2.symm.trans h1)
  · intro heq
    rw [← heq]

/-- Witness of C12, amended: with the sample trajectory updator that always
pushes, the refits of `hit1`, `hit2` and of `hit2`, `hit1` differ. -/
theorem refit_of_reversed_hits_witness :
    trajectories pushingEnv sampleSeed [hit1, hit2].reverse sampleState ≠
      trajectories pushingEnv sampleSeed [hit1, hit2] sampleState :=
  ((refit_of_reversed_hits pushingEnv sampleSeed [hit1, hit2] sampleState
      (by intro meas traj; simp [pushingEnv, pushingTrajectoryUpdator, Trajectory.push1,
        Trajectory.push, Trajectory.recHits])).1 (by decide)).2
    (Or.inl (by decide))

/-- C17: in `fit` started from a valid state, at every hit `ihit` of the input,
reached with predicted state `p` after the hits `pre`: the trajectory updator is
called on the measurement of `p` and `ihit`; when it reports success the state
carried to the next hit is the state it returned; when it reports failure the
along-momentum propagator is called and the state carried on is its propagation
of `p` to the surface of `ihit`, valid or not; the loop goes on with the hits
`post` that follow, and every input hit is handed to the trajectory updator, in
input order. -/
theorem fit_carries_state (env : Env) (seed : TrajectorySeed) (pre : List RecHit)
    (ihit : RecHit) (post : List RecHit) (firstPredTsos : TSOS)
    (hvalid : firstPredTsos.isValid = true) :
    Call.trajectoryUpdate (TM.ofPredicted (fitReach env seed pre firstPredTsos).1 ihit)
        (fitReach env seed pre firstPredTsos).2 ∈
      fitCalls env seed (pre ++ ihit :: post) firstPredTsos ∧
    ((env.theTrajectoryUpdator (TM.ofPredicted (fitReach env seed pre firstPredTsos).1 ihit)
        (fitReach env seed pre firstPredTsos).2).first = true →
      (fitReach env seed (pre ++ [ihit]) firstPredTsos).1 =
        (env.theTrajectoryUpdator (TM.ofPredicted (fitReach env seed pre firstPredTsos).1 ihit)
          (fitReach env seed pre firstPredTsos).2).second) ∧
    ((env.theTrajectoryUpdator (TM.ofPredicted (fitReach env seed pre firstPredTsos).1 ihit)
        (fitReach env seed pre firstPredTsos).2).first = false →
      (fitReach env seed (pre ++ [ihit]) firstPredTsos).1 =
        env.thePropagator1 (fitReach env seed pre firstPredTsos).1 ihit.surface ∧
      Call.propagateAlong (fitReach env seed pre firstPredTsos).1 ihit.surface ∈
        fitCalls env seed (pre ++ ihit :: post) firstPredTsos) ∧
    (fitReach env seed (pre ++ [ihit]) firstPredTsos).2 =
      (env.theTrajectoryUpdator (TM.ofPredicted (fitReach env seed pre firstPredTsos).1 ihit)
        (fitReach env seed pre firstPredTsos).2).traj ∧
    fitReach env seed (pre ++ ihit :: post) firstPredTsos =
      (fitLoop env post (fitReach env seed (pre ++ [ihit]) firstPredTsos).1
        (fitReach env seed (pre ++ [ihit]) firstPredTsos).2).1 ∧
    (fitCalls env seed (pre ++ ihit :: post) firstPredTsos).filterMap Call.handedHit =
      pre ++ ihit :: post := by
  have hrun := fitRun_of_valid env seed (pre ++ ihit :: post) firstPredTsos (by simp) hvalid
  have hcalls : fitCalls env seed (pre ++ ihit :: post) firstPredTsos =
      Call.directionAlong ::
        (fitLoop env (pre ++ ihit :: post) firstPredTsos
          (Trajectory.new seed env.thePropagator1Direction)).2 := by
    rw [fitCalls, hrun, called_snd]
    split <;> rfl
  have hsplit : pre ++ ihit :: post = pre ++ ([ihit] ++ post) := by simp
  have hreach : fitReach env seed (pre ++ [ihit]) firstPredTsos =
      (fitLoop env [ihit] (fitReach env seed pre firstPredTsos).1
        (fitReach env seed pre firstPredTsos).2).1 := by
    rw [fitReach, fitLoop_append]; rfl
  have hlog : (fitLoop env (pre ++ ihit :: post) firstPredTsos
        (Trajectory.new seed env.thePropagator1Direction)).2 =
      (fitLoop env pre firstPredTsos (Trajectory.new seed env.thePropagator1Direction)).2 ++
      ((fitLoop env [ihit] (fitReach env seed pre firstPredTsos).1
        (fitReach env seed pre firstPredTsos).2).2 ++
      (fitLoop env post (fitReach env seed (pre ++ [ihit]) firstPredTsos).1
        (fitReach env seed (pre ++ [ihit]) firstPredTsos).2).2) := by
    rw [hsplit, fitLoop_append, fitLoop_append, hreach]; rfl
  refine ⟨?_, ?_, ?_, ?_, ?_, ?_⟩
  · rw [hcalls, hlog, fitLoop_singleton]
    simp
  · intro hok
    rw [hreach, fitLoop_singleton]
    simp [hok]
  · intro hfail
    constructor
    · rw [hreach, fitLoop_singleton]
      simp [hfail]
    · rw [hcalls, hlog, fitLoop_singleton]
      simp [hfail]
  · rw [hreach, fitLoop_singleton]
  · rw [fitReach, hsplit, ← List.append_assoc, fitLoop_append]; rfl
  · rw [hcalls]
    simp only [List.filterMap_cons, Call.handedHit]
    exact fitLoop_handed_hits env _ _ _

/-- Witness of C17: in the sample fit over `hit1`, `hitLost`, `hit2` the step
of the invalid hit `hitLost` fails; the state carried to `hit2` is the
propagation of the predicted state to the surface of `hitLost`. -/
theorem fit_carries_state_witness :
    (sampleEnv.theTrajectoryUpdator
        (TM.ofPredicted (fitReach sampleEnv sampleSeed [hit1] sampleState).1 hitLost)
        (fitReach sampleEnv sampleSeed [hit1] sampleState).2).first = false ∧
    (fitReach sampleEnv sampleSeed ([hit1] ++ [hitLost]) sampleState).1 =
      sampleEnv.thePropagator1 (fitReach sampleEnv sampleSeed [hit1] sampleState).1
        hitLost.surface ∧
    (fitCalls sampleEnv sampleSeed ([hit1] ++ hitLost :: [hit2]) sampleState).filterMap
      Call.handedHit = [hit1] ++ hitLost :: [hit2] :=
  ⟨by decide,
    ((fit_carries_state sampleEnv sampleSeed [hit1] hitLost [hit2] sampleState
      (by decide)).2.2.1 (by decide)).1,
    (fit_carries_state sampleEnv sampleSeed [hit1] hitLost [hit2] sampleState
      (by decide)).2.2.2.2.2⟩

/-- C18: when `smooth` succeeds on a trajectory with `n` measurements (then
`n >= 2`), the smoothed trajectory has exactly `n` measurements and the seed of
the input, and for every `k < n` its k-th measurement carries the
forward-predicted state, the hit and the layer of the input's (n-1-k)-th
measurement. -/
theorem smooth_keeps_seed_and_frame (env : Env) (t r : Trajectory)
    (h : smooth env t = [r]) :
    2 ≤ t.measurements.length ∧
    r.measurements.length = t.measurements.length ∧
    r.seed = t.seed ∧
    ∀ k, k < t.measurements.length →
      ∃ out inp, r.measurements[k]? = some out ∧
        t.measurements[t.measurements.length - 1 - k]? = some inp ∧
        out.forwardPredictedState = inp.forwardPredictedState ∧
        out.recHit = inp.recHit ∧ out.layer = inp.layer := by
  obtain ⟨hn, tms, hr, hmap⟩ := smoothRun_frame env t r h
  have hmeas : r.measurements = tms := by rw [hr]; rfl
  have hlen : tms.length = t.measurements.length := by
    have := congrArg List.length hmap
    simpa using this
  refine ⟨hn, by rw [hmeas, hlen], by rw [hr]; rfl, ?_⟩
  intro k hk
  have hk1 : k < tms.length := by omega
  have hk2 : t.measurements.length - 1 - k < t.measurements.length := by omega
  refine ⟨tms[k], t.measurements[t.measurements.length - 1 - k], ?_, ?_, ?_⟩
  · rw [hmeas, List.getElem?_eq_getElem hk1]
  · rw [List.getElem?_eq_getElem hk2]
  · have hget : (tms.map TM.frame)[k]? = ((t.measurements.map TM.frame).reverse)[k]? := by
      rw [hmap]
    rw [List.getElem?_reverse (by simpa using hk)] at hget
    simp only [List.getElem?_map, List.length_map, List.getElem?_eq_getElem hk1,
      List.getElem?_eq_getElem hk2, Option.map_some', Option.some.injEq] at hget
    simp only [TM.frame, Prod.mk.injEq] at hget
    exact hget

/-- Witness of C18: the sample trajectory over `hit1`, `hitLost`, `hit2`. -/
theorem smooth_keeps_seed_and_frame_witness :
    ∃ r, smooth sampleEnv (sampleTrajectory [sampleTM 1 hit1, sampleTM 2 hitLost, sampleTM 2 hit2])
        = [r] ∧
      r.measurements.length = 3 ∧ r.seed = sampleSeed := by
  refine ⟨(smooth sampleEnv
    (sampleTrajectory [sampleTM 1 hit1, sampleTM 2 hitLost, sampleTM 2 hit2])).head (by decide),
    by decide, ?_, ?_⟩
  · exact (smooth_keeps_seed_and_frame sampleEnv
      (sampleTrajectory [sampleTM 1 hit1, sampleTM 2 hitLost, sampleTM 2 hit2]) _
      (by decide)).2.1
  · exact (smooth_keeps_seed_and_frame sampleEnv
      (sampleTrajectory [sampleTM 1 hit1, sampleTM 2 hitLost, sampleTM 2 hit2]) _
      (by decide)).2.2.1

/-- C16: in `smooth` of a trajectory with at least 2 measurements and last
measurement `l`, the forward-predicted state of `l` is rescaled by the fixed
factor 100.  If the rescaled state is invalid `smooth` returns the empty list.
If it is valid, the first measurement pushed (for `l`) carries the fit-time
chi-square of `l`, whether its hit is valid or not, and the step calls no
estimator (the calls of the run are the direction query, the calls of this
step, those of the walk and those of the first-measurement step, and the calls
of this step hold no estimator call): with a valid hit it calls the updator
only, the measurement holds the
rescaled state as backward-predicted state and the forward-updated state of `l`
as updated state, and the current state is `update(rescaled, hit)`; with an
invalid hit no call is made and the current state is the rescaled state.  On
success that measurement is the first of the output. -/
theorem smooth_last_measurement (env : Env) (t : Trajectory) (l : TM)
    (hlen : 2 ≤ t.measurements.length) (hlast : t.measurements.getLast? = some l) :
    smoothRescaled env l = env.rescaleError l.forwardPredictedState 100 ∧
    ((smoothRescaled env l).isValid = false → smooth env t = []) ∧
    ((smoothRescaled env l).isValid = true →
      (smoothEntry env t l).2.measurements =
        [if l.recHit.isValid then
          TM.ofStates l.forwardPredictedState (smoothRescaled env l) l.updatedState l.recHit
            l.estimate l.layer
        else TM.ofForward l.forwardPredictedState l.recHit l.estimate l.layer] ∧
      (smoothEntry env t l).1 =
        (if l.recHit.isValid then env.theUpdator (smoothRescaled env l) l.recHit
        else smoothRescaled env l) ∧
      (∃ rest, smoothCalls env t =
        Call.directionOpposite ::
          ((if l.recHit.isValid then [Call.update (smoothRescaled env l) l.recHit] else []) ++
            rest)) ∧
      (∀ r, smooth env t = [r] →
        ∃ tm, r.measurements.head? = some tm ∧ (smoothEntry env t l).2.measurements = [tm] ∧
          tm.estimate = l.estimate) ∧
      (smoothLast env l (smoothRescaled env l)
          (Trajectory.new t.seed env.thePropagator2Direction)).2 =
        (if l.recHit.isValid then [Call.update (smoothRescaled env l) l.recHit] else []) ∧
      (∀ s hit, Call.estimate s hit ∉
        (smoothLast env l (smoothRescaled env l)
          (Trajectory.new t.seed env.thePropagator2Direction)).2) ∧
      (∃ tail, smoothCalls env t =
          Call.directionOpposite ::
            ((smoothLast env l (smoothRescaled env l)
                (Trajectory.new t.seed env.thePropagator2Direction)).2 ++
              (smoothLoop env (interior t.measurements) (smoothEntry env t l).1
                (smoothEntry env t l).2).2 ++ tail) ∧
        (tail = [] ∨
          ∃ f c tr, t.measurements.head? = some f ∧
            smoothAfter env t l (interior t.measurements) = some (c, tr) ∧
            tail = (smoothFirst env f c tr).2))) := by
  refine ⟨rfl, smoothRun_invalid_rescaled env t l hlast, ?_⟩
  intro hv
  have hres := smoothLast_result env l (smoothRescaled env l)
    (Trajectory.new t.seed env.thePropagator2Direction)
  have hdata : (smoothEntry env t l).2.measurements =
      [if l.recHit.isValid then
        TM.ofStates l.forwardPredictedState (smoothRescaled env l) l.updatedState l.recHit
          l.estimate l.layer
      else TM.ofForward l.forwardPredictedState l.recHit l.estimate l.layer] := by
    rw [smoothEntry, hres]
    simp [Trajectory.measurements, Trajectory.new]
  have hlastCalls := congrArg Prod.snd hres
  simp only at hlastCalls
  refine ⟨hdata, by rw [smoothEntry, hres], ?_, ?_, hlastCalls, ?_, ?_⟩
  · obtain ⟨f, mid, l1, hsplit⟩ := two_le_length_split t.measurements hlen
    have hl : l1 = l := by
      rw [hsplit, ← List.cons_append, List.getLast?_concat] at hlast
      simpa using hlast
    subst hl
    have hlast2 := congrArg Prod.snd hres
    simp only at hlast2
    rcases hw : (smoothLoop env mid.reverse
        (smoothLast env l1 (env.rescaleError l1.forwardPredictedState theErrorRescaling)
          (Trajectory.new t.seed env.thePropagator2Direction)).1.1
        (smoothLast env l1 (env.rescaleError l1.forwardPredictedState theErrorRescaling)
          (Trajectory.new t.seed env.thePropagator2Direction)).1.2).1 with _ | ⟨c, tr⟩
    · rw [smoothCalls, smoothRun_of_walk_none env t f l1 mid hsplit _ rfl hv _ rfl _ rfl hw,
        ← hlast2]
      exact ⟨_, rfl⟩
    · rw [smoothCalls, smoothRun_of_walk_some env t f l1 mid hsplit _ rfl hv _ rfl _ rfl c tr hw,
        ← hlast2, List.append_assoc]
      exact ⟨_, rfl⟩
  · intro r hr
    obtain ⟨f, hf⟩ : ∃ f, t.measurements.head? = some f := by
      cases hm : t.measurements with
      | nil => simp [hm] at hlen
      | cons a _ => exact ⟨a, rfl⟩
    obtain ⟨_, _, c, tr, hw, hfirst⟩ := smoothRun_success env t r f l hf hlast hr
    obtain ⟨tms, htr, _⟩ := smoothLoop_data_length env _ _ c _ tr hw
    obtain ⟨tmF, hrF, _⟩ := smoothFirst_pushes env f c tr r hfirst
    refine ⟨_, ?_, hdata, ?_⟩
    · rw [Trajectory.measurements, hrF]
      simp only [htr]
      rw [Trajectory.measurements] at hdata
      rw [hdata]
      simp
    · split <;> rfl
  · intro s hit hmem
    rw [hlastCalls] at hmem
    split at hmem <;> simp at hmem
  · obtain ⟨f, hf⟩ : ∃ f, t.measurements.head? = some f := by
      cases hm : t.measurements with
      | nil => simp [hm] at hlen
      | cons a _ => exact ⟨a, rfl⟩
    obtain ⟨mid, hsplit, hint⟩ := measurements_shape t f l hlen hf hlast
    rcases hw : smoothAfter env t l (interior t.measurements) with _ | ⟨c, tr⟩
    · refine ⟨[], ?_, Or.inl rfl⟩
      rw [hint] at hw ⊢
      rw [smoothCalls, smoothRun_of_walk_none env t f l mid hsplit _ rfl hv _ rfl _ rfl hw,
        List.append_nil]
      rfl
    · refine ⟨(smoothFirst env f c tr).2, ?_, Or.inr ⟨f, c, tr, hf, rfl, rfl⟩⟩
      rw [smoothCalls, smoothRun_after_some env t f l hlen hf hlast hv c tr hw]

/-- Witness of C16: on the sample trajectory over `hit1`, `hit2` the last
measurement has a valid hit and a forward-predicted state that stays valid. -/
theorem smooth_last_measurement_witness :
    (smoothRescaled sampleEnv (sampleTM 2 hit2)).isValid = true ∧
    (smoothEntry sampleEnv (sampleTrajectory [sampleTM 1 hit1, sampleTM 2 hit2])
        (sampleTM 2 hit2)).1 =
      sampleEnv.theUpdator (smoothRescaled sampleEnv (sampleTM 2 hit2)) hit2 :=
  ⟨by decide,
    ((smooth_last_measurement sampleEnv (sampleTrajectory [sampleTM 1 hit1, sampleTM 2 hit2])
      (sampleTM 2 hit2) (by decide) (by decide)).2.2 (by decide)).2.1⟩

/-- C15: when `smooth` succeeds on a trajectory with `n >= 2` measurements and
first measurement `f`, the walk has left a current state `c`, the backward
propagation `p` of `c` to the surface of the hit of `f` is valid, and the
measurement pushed last (at index `n - 1`) is: with a valid hit, the one with
backward-predicted state `p`, updated state `update(p, hit)` and the chi-square
the estimator returns for `p` against the hit (updator and estimator are
called on `p` and the hit); with an invalid hit, the one holding the
forward-predicted state of `f` only, with the fit-time chi-square of `f`. -/
theorem smooth_first_measurement (env : Env) (t r : Trajectory) (f l : TM)
    (hsucc : smooth env t = [r]) (hfirst : t.measurements.head? = some f)
    (hlast : t.measurements.getLast? = some l) :
    ∃ c tr, smoothAfter env t l (interior t.measurements) = some (c, tr) ∧
      (env.thePropagator2 c f.recHit.surface).isValid = true ∧
      r.measurements.getLast? =
        some (if f.recHit.isValid then
          TM.ofStates f.forwardPredictedState (env.thePropagator2 c f.recHit.surface)
            (env.theUpdator (env.thePropagator2 c f.recHit.surface) f.recHit) f.recHit
            (env.theEstimator (env.thePropagator2 c f.recHit.surface) f.recHit).2 f.layer
        else TM.ofForward f.forwardPredictedState f.recHit f.estimate f.layer) ∧
      r.measurements[t.measurements.length - 1]? = r.measurements.getLast? ∧
      (f.recHit.isValid = true →
        Call.update (env.thePropagator2 c f.recHit.surface) f.recHit ∈ smoothCalls env t ∧
        Call.estimate (env.thePropagator2 c f.recHit.surface) f.recHit ∈ smoothCalls env t) := by
  obtain ⟨hlen, hv, c, tr, hw, hF⟩ := smoothRun_success env t r f l hfirst hlast hsucc
  have hp := smoothFirst_some_valid env f c tr r hF
  have hres := smoothFirst_result env f c tr
  have hdata := smoothAfter_data_length env t l _ c tr hw
  rw [interior_length] at hdata
  have hlen2 : 2 ≤ t.theData.length := hlen
  have hdata2 : tr.theData.length = t.theData.length - 2 + 1 := hdata
  refine ⟨c, tr, hw, hp, ?_, ?_, ?_⟩
  · rw [hres] at hF
    simp only [hp, Bool.not_true, Bool.false_eq_true, if_false, List.cons.injEq, and_true] at hF
    rw [← hF, Trajectory.measurements]
    simp
  · rw [hres] at hF
    simp only [hp, Bool.not_true, Bool.false_eq_true, if_false, List.cons.injEq, and_true] at hF
    rw [← hF]
    simp only [Trajectory.measurements, List.getLast?_concat]
    rw [List.getElem?_append_right (by omega)]
    have : t.theData.length - 1 - tr.theData.length = 0 := by omega
    rw [this]
    rfl
  · intro hhit
    rw [smoothCalls, smoothRun_after_some env t f l hlen hfirst hlast hv c tr hw, hres]
    simp [hp, hhit]

/-- Witness of C15: the sample trajectory over `hit1`, `hit2`, smoothed into a
trajectory whose last measurement has the recomputed chi-square 204. -/
theorem smooth_first_measurement_witness :
    (smooth sampleEnv (sampleTrajectory [sampleTM 1 hit1, sampleTM 2 hit2])).map
        (fun r => r.measurements.getLast?) =
      [some (TM.ofStates ⟨true, 1⟩ ⟨true, 203⟩ ⟨true, 204⟩ hit1 204 (some 1))] ∧
    ∃ c tr, smoothAfter sampleEnv (sampleTrajectory [sampleTM 1 hit1, sampleTM 2 hit2])
        (sampleTM 2 hit2)
        (interior (sampleTrajectory [sampleTM 1 hit1, sampleTM 2 hit2]).measurements) =
          some (c, tr) ∧
      (sampleEnv.thePropagator2 c hit1.surface).isValid = true := by
  refine ⟨by decide, ?_⟩
  obtain ⟨c, tr, hw, hp, _⟩ := smooth_first_measurement sampleEnv
    (sampleTrajectory [sampleTM 1 hit1, sampleTM 2 hit2])
    ((smooth sampleEnv (sampleTrajectory [sampleTM 1 hit1, sampleTM 2 hit2])).head (by decide))
    (sampleTM 1 hit1) (sampleTM 2 hit2) (by decide) (by decide) (by decide)
  exact ⟨c, tr, hw, hp⟩

/-- C13: in `smooth` of a trajectory (then of 3 measurements at least) whose
reverse walk visits `pre`, then the interior measurement `m` with a valid hit,
then `post`.  When `smooth` succeeds, the walk reaches `m` with a current state
`c`, the backward propagation `p` of `c` to the surface of the hit of `m` is
valid, both combinations are valid, the output measurement for `m` (at index
`pre.length + 1`) has backward-predicted state `p`, smoothed state
`combine(m.updatedState, p)` and the chi-square the estimator returns for
`combine(p, m.forwardPredictedState)` against the hit, and the current state
carried on is `update(p, hit)`.  When either combination is invalid `smooth`
returns the empty list. -/
theorem smooth_interior_valid_hit (env : Env) (t : Trajectory) (l : TM) (pre post : List TM)
    (m : TM) (hlast : t.measurements.getLast? = some l)
    (hwalk : interior t.measurements = pre ++ m :: post)
    (hhit : m.recHit.isValid = true) :
    3 ≤ t.measurements.length ∧
    (∀ r, smooth env t = [r] →
      ∃ c tr p, smoothAfter env t l pre = some (c, tr) ∧
        p = env.thePropagator2 c m.recHit.surface ∧ p.isValid = true ∧
        (env.combiner p m.forwardPredictedState).isValid = true ∧
        (env.combiner m.updatedState p).isValid = true ∧
        r.measurements[pre.length + 1]? =
          some (TM.ofStates m.forwardPredictedState p (env.combiner m.updatedState p) m.recHit
            (env.theEstimator (env.combiner p m.forwardPredictedState) m.recHit).2 m.layer) ∧
        (smoothAfter env t l (pre ++ [m])).map Prod.fst = some (env.theUpdator p m.recHit)) ∧
    (∀ c tr, smoothAfter env t l pre = some (c, tr) →
      ((env.combiner (env.thePropagator2 c m.recHit.surface)
          m.forwardPredictedState).isValid = false ∨
        (env.combiner m.updatedState
          (env.thePropagator2 c m.recHit.surface)).isValid = false) →
      smooth env t = []) := by
  refine ⟨?_, ?_, ?_⟩
  · have h := interior_length t
    rw [hwalk] at h
    simp only [List.length_append, List.length_cons] at h
    omega
  · intro r hsucc
    obtain ⟨c, tr, c1, tr1, hpre, hstep, hafter, hidx, _⟩ :=
      smoothRun_through env t r l pre post m hlast hwalk hsucc
    rw [smoothStep_valid_hit env m c tr hhit] at hstep
    split_ifs at hstep with h1 h2 h3
    simp only [Option.some.injEq, Prod.mk.injEq] at hstep
    obtain ⟨hc1, htr1⟩ := hstep
    refine ⟨c, tr, _, hpre, rfl, by simpa using h1, by simpa using h2, by simpa using h3,
      hidx _ (by rw [← htr1]; rfl), ?_⟩
    rw [hafter, ← hc1]
    rfl
  · intro c tr hpre hbad
    apply smoothRun_step_none env t l pre post m hlast hwalk c tr hpre
    rw [smoothStep_valid_hit env m c tr hhit]
    rcases hbad with hbad | hbad <;> simp [hbad]

/-- Witness of C13: the sample trajectory over `hit1`, `hit2`, `hit1`, whose
walk visits the middle measurement only; its output measurement has the
backward-predicted state 403, the smoothed state 407 and the chi-square 407. -/
theorem smooth_interior_valid_hit_witness :
    (smooth sampleEnv
        (sampleTrajectory [sampleTM 1 hit1, sampleTM 2 hit2, sampleTM 4 hit1])).map
        (fun r => r.measurements[1]?) =
      [some (TM.ofStates ⟨true, 2⟩ ⟨true, 403⟩ ⟨true, 407⟩ hit2 407 (some 2))] ∧
    ∃ c tr p, smoothAfter sampleEnv
        (sampleTrajectory [sampleTM 1 hit1, sampleTM 2 hit2, sampleTM 4 hit1])
        (sampleTM 4 hit1) [] = some (c, tr) ∧
      p = sampleEnv.thePropagator2 c hit2.surface ∧ p.isValid = true := by
  refine ⟨by decide, ?_⟩
  obtain ⟨c, tr, p, hpre, hp, hv, _⟩ := (smooth_interior_valid_hit sampleEnv
    (sampleTrajectory [sampleTM 1 hit1, sampleTM 2 hit2, sampleTM 4 hit1]) (sampleTM 4 hit1)
    [] [] (sampleTM 2 hit2) (by decide) (by decide) (by decide)).2.1
    ((smooth sampleEnv
      (sampleTrajectory [sampleTM 1 hit1, sampleTM 2 hit2, sampleTM 4 hit1])).head (by decide))
    (by decide)
  exact ⟨c, tr, p, hpre, hp, hv⟩

/-- C14: in `smooth` of a trajectory (then of 3 measurements at least) whose
reverse walk visits `pre`, then the interior measurement `m` with an invalid
hit, then `post`.  When `smooth` succeeds, the walk reaches `m` with a current
state `c`, the backward propagation `p` of `c` to the surface of the hit of `m`
is valid, the calls made for `m` are that propagation and one combination (no
call of the updator or of the estimator), the current state carried on is `p`
itself, and the output measurement for `m` (at index `pre.length + 1`) has
smoothed state `combine(p, m.forwardPredictedState)` and the fit-time
chi-square of `m`.  When the combination is invalid `smooth` returns the empty
list. -/
theorem smooth_interior_invalid_hit (env : Env) (t : Trajectory) (l : TM) (pre post : List TM)
    (m : TM) (hlast : t.measurements.getLast? = some l)
    (hwalk : interior t.measurements = pre ++ m :: post)
    (hhit : m.recHit.isValid = false) :
    3 ≤ t.measurements.length ∧
    (∀ r, smooth env t = [r] →
      ∃ c tr p, smoothAfter env t l pre = some (c, tr) ∧
        p = env.thePropagator2 c m.recHit.surface ∧ p.isValid = true ∧
        (env.combiner p m.forwardPredictedState).isValid = true ∧
        r.measurements[pre.length + 1]? =
          some (TM.ofStates m.forwardPredictedState p
            (env.combiner p m.forwardPredictedState) m.recHit m.estimate m.layer) ∧
        (smoothAfter env t l (pre ++ [m])).map Prod.fst = some p ∧
        ∃ after, smoothCalls env t =
          Call.directionOpposite ::
            ((smoothLast env l (smoothRescaled env l)
                (Trajectory.new t.seed env.thePropagator2Direction)).2 ++
              (smoothLoop env pre (smoothEntry env t l).1 (smoothEntry env t l).2).2) ++
            [Call.propagateOpposite c m.recHit.surface,
              Call.combine p m.forwardPredictedState] ++ after) ∧
    (∀ c tr, smoothAfter env t l pre = some (c, tr) →
      (env.combiner (env.thePropagator2 c m.recHit.surface)
        m.forwardPredictedState).isValid = false →
      smooth env t = []) ∧
    (∀ c tr call, call ∈ (smoothStep env m c tr).2 →
      (∀ s hit, call ≠ Call.update s hit) ∧ (∀ s hit, call ≠ Call.estimate s hit)) := by
  refine ⟨?_, ?_, ?_, ?_⟩
  · have h := interior_length t
    rw [hwalk] at h
    simp only [List.length_append, List.length_cons] at h
    omega
  · intro r hsucc
    obtain ⟨c, tr, c1, tr1, hpre, hstep, hafter, hidx, after, hlog⟩ :=
      smoothRun_through env t r l pre post m hlast hwalk hsucc
    obtain ⟨hres, hcalls⟩ := smoothStep_invalid_hit env m c tr hhit
    rw [hres] at hstep
    split_ifs at hstep with h1 h2
    simp only [Option.some.injEq, Prod.mk.injEq] at hstep
    obtain ⟨hc1, htr1⟩ := hstep
    have hv : (env.thePropagator2 c m.recHit.surface).isValid = true := by simpa using h1
    refine ⟨c, tr, _, hpre, rfl, hv, by simpa using h2,
      hidx _ (by rw [← htr1]; rfl), ?_, after, ?_⟩
    · rw [hafter, ← hc1]
      rfl
    · rw [smoothCalls, hlog, hcalls]
      simp [hv]
  · intro c tr hpre hbad
    apply smoothRun_step_none env t l pre post m hlast hwalk c tr hpre
    rw [(smoothStep_invalid_hit env m c tr hhit).1]
    simp [hbad]
  · intro c tr call hcall
    rw [(smoothStep_invalid_hit env m c tr hhit).2] at hcall
    constructor
    · intro s hit heq
      subst heq
      split_ifs at hcall <;> simp at hcall
    · intro s hit heq
      subst heq
      split_ifs at hcall <;> simp at hcall

/-- Witness of C14: the sample trajectory over `hit1`, `hitLost`, `hit2`, whose
walk visits the middle measurement only; its output measurement keeps the
fit-time chi-square 1. -/
theorem smooth_interior_invalid_hit_witness :
    (smooth sampleEnv
        (sampleTrajectory [sampleTM 1 hit1, sampleTM 2 hitLost, sampleTM 2 hit2])).map
        (fun r => r.measurements[1]?) =
      [some (TM.ofStates ⟨true, 2⟩ ⟨true, 205⟩ ⟨true, 207⟩ hitLost 1 (some 3))] ∧
    ∃ c tr p, smoothAfter sampleEnv
        (sampleTrajectory [sampleTM 1 hit1, sampleTM 2 hitLost, sampleTM 2 hit2])
        (sampleTM 2 hit2) [] = some (c, tr) ∧
      p = sampleEnv.thePropagator2 c hitLost.surface ∧ p.isValid = true := by
  refine ⟨by decide, ?_⟩
  obtain ⟨c, tr, p, hpre, hp, hv, _⟩ := (smooth_interior_invalid_hit sampleEnv
    (sampleTrajectory [sampleTM 1 hit1, sampleTM 2 hitLost, sampleTM 2 hit2]) (sampleTM 2 hit2)
    [] [] (sampleTM 2 hitLost) (by decide) (by decide) (by decide)).2.1
    ((smooth sampleEnv
      (sampleTrajectory [sampleTM 1 hit1, sampleTM 2 hitLost, sampleTM 2 hit2])).head (by decide))
    (by decide)
  exact ⟨c, tr, p, hpre, hp, hv⟩

end GlobalMuonReFitter

namespace HcalDigi

namespace HBHEDataFrame

theorem hcalPresamples_lt_of_never_set (f : HBHEDataFrame) (h : OffsetNeverSet f) :
    f.hcalPresamples_ < 2 ^ 6 := by
  induction h with
  | fresh id => simp [fresh]
  | setSize m f size _ ih =>
    simp only [setSize]
    split_ifs <;> exact ih
  | setPresamples f ps _ ih =>
    simp only [setPresamples]
    apply Nat.or_lt_two_pow ih
    have h1 : 0 ≤ ps % 16 := Int.emod_nonneg _ (by norm_num)
    have h2 : ps % 16 < 16 := Int.emod_lt_of_pos _ (by norm_num)
    omega
  | setReadoutIds f eid _ ih => exact ih
  | setZSInfo f u m _ ih =>
    simp only [setZSInfo]
    split_ifs
    · exact Nat.or_lt_two_pow (Nat.or_lt_two_pow ih (by norm_num)) (by norm_num)
    · exact Nat.or_lt_two_pow ih (by norm_num)
    · exact Nat.or_lt_two_pow ih (by norm_num)
    · exact ih

theorem fiberIdleOffset_of_small (f : HBHEDataFrame) (h : f.hcalPresamples_ < 2 ^ 6) :
    fiberIdleOffset f = -1000 := by
  have h1 : f.hcalPresamples_ &&& 0xF00 ≤ f.hcalPresamples_ := Nat.and_le_left
  have h2 : (f.hcalPresamples_ &&& 0xF00) >>> 8 = 0 := by
    rw [Nat.shiftRight_eq_div_pow]
    apply Nat.div_eq_of_lt
    omega
  simp [fiberIdleOffset, h2]

/-- C19: on a freshly constructed frame, `setFiberIdleOffset(offset)` followed by
`fiberIdleOffset()` returns the absolute value of `offset` for every
`-7 <= offset <= 7`: it returns `offset` when `offset >= 0`, and `-offset`, not
`offset`, when `offset < 0`, because `val&0x8==0` is `val & (0x8==0)`, which is
0.  On a frame on which no offset was ever set `fiberIdleOffset()` returns the
sentinel -1000. -/
theorem fiberIdleOffset_after_set (id : Nat) (offset : Int) (hlo : -7 ≤ offset)
    (hhi : offset ≤ 7) :
    fiberIdleOffset (setFiberIdleOffset (fresh id) offset) = (offset.natAbs : Int) ∧
    (0 ≤ offset → fiberIdleOffset (setFiberIdleOffset (fresh id) offset) = offset) ∧
    (offset < 0 → fiberIdleOffset (setFiberIdleOffset (fresh id) offset) = -offset ∧
      fiberIdleOffset (setFiberIdleOffset (fresh id) offset) ≠ offset) ∧
    (∀ g, OffsetNeverSet g → fiberIdleOffset g = -1000) := by
  have habs : fiberIdleOffset (setFiberIdleOffset (fresh id) offset) = (offset.natAbs : Int) := by
    interval_cases offset <;> simp [fiberIdleOffset, setFiberIdleOffset, fresh] <;> decide
  refine ⟨habs, ?_, ?_, fun g hg => fiberIdleOffset_of_small g (hcalPresamples_lt_of_never_set g hg)⟩
  · intro h
    rw [habs]
    omega
  · intro h
    rw [habs]
    omega

/-- Witness of C19: after `setFiberIdleOffset(-3)` on a fresh frame,
`fiberIdleOffset()` returns 3. -/
theorem fiberIdleOffset_after_set_witness :
    fiberIdleOffset (setFiberIdleOffset (fresh 0) (-3)) = 3 ∧
    fiberIdleOffset (setFiberIdleOffset (fresh 0) (-3)) ≠ -3 :=
  ⟨(fiberIdleOffset_after_set 0 (-3) (by decide) (by decide)).1,
    ((fiberIdleOffset_after_set 0 (-3) (by decide) (by decide)).2.2.1 (by decide)).2⟩

end HBHEDataFrame

end HcalDigi

namespace HcalDigi

namespace HBHEDataFrame

theorem validateLoop_not_ok (f : HBHEDataFrame) (firstSample nSamples : Int) (fuel : Nat)
    (i capid : Int) : validateLoop f firstSample nSamples (fuel + 1) i capid false = some false := by
  simp [validateLoop]

/-- One run of the body of the loop of `validate`, at an iteration inside the window. -/
theorem validateLoop_body (f : HBHEDataFrame) (firstSample nSamples : Int) (fuel k : Nat)
    (capid : Int) (hk : (k : Int) < nSamples) (hs : (k : Int) + firstSample < f.size_) :
    validateLoop f firstSample nSamples (fuel + 1) k capid true =
      validateLoop f firstSample nSamples fuel ((k + 1 : Nat) : Int)
        (((if k = 0 then ((f.data_ (firstSample + k).toNat).capid.val : Int) else capid) + 1).tmod
          4)
        (if (if k = 0 then ((f.data_ (firstSample + k).toNat).capid.val : Int) else capid) ≠
            ((f.data_ (firstSample + k).toNat).capid.val : Int) then false
          else if (f.data_ (firstSample + k).toNat).er || !(f.data_ (firstSample + k).toNat).dv
            then false
          else true) := by
  have hidx : ((k : Int) + firstSample).toNat = (firstSample + k).toNat := by
    rw [Int.add_comm]
  rw [validateLoop]
  simp only [hk, hs, hidx, decide_True, Bool.and_self, if_true, Nat.cast_add, Nat.cast_one,
    Nat.cast_eq_zero]

/-- The loop of `validate`, entered at iteration `k` with `ok` set and the
expected capacitor id in `capid`, returns whether every sample of the window
from `k` on passes the checks. -/
theorem validateLoop_spec (f : HBHEDataFrame) (firstSample nSamples : Int) :
    ∀ (fuel k : Nat) (capid : Int), (nSamples - k).toNat + 1 ≤ fuel →
      (k = 0 ∨ capid = (((f.data_ firstSample.toNat).capid.val : Int) + k) % 4) →
      ∃ b, validateLoop f firstSample nSamples fuel k capid true = some b ∧
        (b = true ↔ ∀ j : Nat, k ≤ j → (j : Int) < nSamples → firstSample + j < f.size_ →
          sampleOk f firstSample j)
  | 0, _, _ => by intro h; omega
  | fuel + 1, k, capid => by
    intro hfuel hinv
    by_cases hguard : (k : Int) < nSamples ∧ (k : Int) + firstSample < f.size_
    · have hE : (if k = 0 then ((f.data_ (firstSample + k).toNat).capid.val : Int) else capid) =
          (((f.data_ firstSample.toNat).capid.val : Int) + k) % 4 := by
        split
        · rename_i hk0
          subst hk0
          simp only [Nat.cast_zero, Int.add_zero]
          have := (f.data_ firstSample.toNat).capid.isLt
          omega
        · rename_i hk0
          rcases hinv with h0 | hc
          · exact absurd h0 hk0
          · exact hc
      have hbody := validateLoop_body f firstSample nSamples fuel k capid hguard.1 hguard.2
      rw [hE] at hbody
      by_cases hok : sampleOk f firstSample k
      · obtain ⟨her, hdv, hcapid⟩ := hok
        rw [← hcapid] at hbody
        simp only [her, hdv, ne_eq, not_true_eq_false, if_false, Bool.not_true, Bool.or_self,
          Bool.false_eq_true] at hbody
        have hnext : (((f.data_ (firstSample + k).toNat).capid.val : Int) + 1).tmod 4 =
            (((f.data_ firstSample.toNat).capid.val : Int) + (k + 1 : Nat)) % 4 := by
          rw [Int.tmod_eq_emod (by omega) (by norm_num), hcapid]
          push_cast
          omega
        obtain ⟨b, hb, hiff⟩ := validateLoop_spec f firstSample nSamples fuel (k + 1) _
          (by omega) (Or.inr hnext)
        refine ⟨b, by rw [hbody, hb], ?_⟩
        rw [hiff]
        constructor
        · intro h j hj
          rcases Nat.eq_or_lt_of_le hj with rfl | hlt
          · intro _ _
            exact ⟨her, hdv, hcapid⟩
          · exact h j hlt
        · intro h j hj
          exact h j (by omega)
      · obtain ⟨fuel1, rfl⟩ : ∃ m, fuel = m + 1 := ⟨fuel - 1, by omega⟩
        have hbad : (if (((f.data_ firstSample.toNat).capid.val : Int) + k) % 4 ≠
              ((f.data_ (firstSample + k).toNat).capid.val : Int) then false
            else if (f.data_ (firstSample + k).toNat).er ||
              !(f.data_ (firstSample + k).toNat).dv then false
            else true) = false := by
          by_contra hcontra
          apply hok
          by_cases h1 : (((f.data_ firstSample.toNat).capid.val : Int) + k) % 4 =
              ((f.data_ (firstSample + k).toNat).capid.val : Int)
          · rcases her : (f.data_ (firstSample + k).toNat).er <;>
              rcases hdv : (f.data_ (firstSample + k).toNat).dv <;>
              simp [h1, her, hdv] at hcontra
            exact ⟨her, hdv, h1.symm⟩
          · simp [h1] at hcontra
        rw [hbad, validateLoop_not_ok] at hbody
        refine ⟨false, hbody, ?_⟩
        constructor
        · intro h; exact absurd h (by simp)
        · intro h
          exact absurd (h k (le_refl k) hguard.1 (by omega)) hok
    · refine ⟨true, ?_, ?_⟩
      · rw [validateLoop]
        have : (true && decide ((k : Int) < nSamples) &&
            decide ((k : Int) + firstSample < f.size_)) = false := by
          rw [not_and_or] at hguard
          rcases hguard with h | h <;> simp [h]
        simp only [this]
        simp
      · constructor
        · intro _ j hj hjn hjs
          exfalso
          apply hguard
          constructor <;> omega
        · intro _; rfl

end HBHEDataFrame

end HcalDigi

namespace HcalDigi

namespace HBHEDataFrame

/-- The size that `setSize` leaves lies between 0 and `MAXSAMPLES`. -/
theorem setSize_bounds (maxSamples : Int) (f : HBHEDataFrame) (size : Int)
    (hmax : 0 ≤ maxSamples) :
    0 ≤ (setSize maxSamples f size).size_ ∧ (setSize maxSamples f size).size_ ≤ maxSamples := by
  simp only [setSize]
  split_ifs <;> constructor <;> simp only <;> omega

/-- C20: for every frame, every `firstSample >= 0` and every `nSamples`,
`validate(firstSample, nSamples)` returns, and it returns true exactly when
every sample at index `firstSample + i` with `0 <= i < nSamples` and
`firstSample + i < size_` has its error flag clear, its data-valid flag set and
a capacitor id equal to the capacitor id of the sample at `firstSample`, plus
`i`, modulo 4; in particular it returns true when the window is empty
(`nSamples <= 0` or `firstSample >= size_`). -/
theorem validate_iff_window_ok (f : HBHEDataFrame) (firstSample nSamples : Int)
    (_hfirst : 0 ≤ firstSample) :
    ∃ b, validate f firstSample nSamples = some b ∧
      (b = true ↔
        ∀ i : Nat, (i : Int) < nSamples → firstSample + i < f.size_ →
          (f.data_ (firstSample + i).toNat).er = false ∧
          (f.data_ (firstSample + i).toNat).dv = true ∧
          ((f.data_ (firstSample + i).toNat).capid.val : Int) =
            (((f.data_ firstSample.toNat).capid.val : Int) + i) % 4) ∧
      ((nSamples ≤ 0 ∨ f.size_ ≤ firstSample) → b = true) := by
  obtain ⟨b, hb, hiff⟩ := validateLoop_spec f firstSample nSamples (nSamples.toNat + 1) 0 (-1)
    (by simp) (Or.inl rfl)
  have hiff2 : b = true ↔
      ∀ i : Nat, (i : Int) < nSamples → firstSample + i < f.size_ →
        (f.data_ (firstSample + i).toNat).er = false ∧
        (f.data_ (firstSample + i).toNat).dv = true ∧
        ((f.data_ (firstSample + i).toNat).capid.val : Int) =
          (((f.data_ firstSample.toNat).capid.val : Int) + i) % 4 := by
    rw [hiff]
    constructor
    · intro h i hi hs
      exact h i (Nat.zero_le i) hi hs
    · intro h j _ hj hs
      exact h j hj hs
  refine ⟨b, by simpa [validate] using hb, hiff2, ?_⟩
  intro hempty
  rw [hiff2]
  intro i hi hs
  exfalso
  rcases hempty with h | h <;> omega

/-- Witness of C20: on the sample frame of size 4, the window of the first three
samples is valid, the window of all four is not, and an empty window is valid. -/
theorem validate_iff_window_ok_witness :
    (validate sampleFrame 0 3 = some true ∧ validate sampleFrame 0 4 = some false ∧
      validate sampleFrame 1 2 = some true ∧ validate sampleFrame 7 2 = some true) ∧
    ∃ b, validate sampleFrame 0 3 = some b ∧
      (b = true ↔
        ∀ i : Nat, (i : Int) < 3 → (0 : Int) + i < sampleFrame.size_ →
          (sampleFrame.data_ ((0 : Int) + i).toNat).er = false ∧
          (sampleFrame.data_ ((0 : Int) + i).toNat).dv = true ∧
          ((sampleFrame.data_ ((0 : Int) + i).toNat).capid.val : Int) =
            (((sampleFrame.data_ (0 : Int).toNat).capid.val : Int) + i) % 4) ∧
      (((3 : Int) ≤ 0 ∨ sampleFrame.size_ ≤ 0) → b = true) :=
  ⟨by decide, validate_iff_window_ok sampleFrame 0 3 (by decide)⟩

end HBHEDataFrame

end HcalDigi
